import Mathlib

/-!
# Verification of the start-os health-check cycle

Shallow embedding of `src/backend/src/manager/health.rs` (`check`) together
with the collaborators that this file uses but that live outside the
provided sources (the patch-db transactional store, the probe runner
`check_all`, and `break_transitive` / `heal_transitive` from
`dependencies.rs`).  Collaborators are modelled from the specification and
carry a `Modelled from the spec:` doc comment; everything else is a direct
translation of the Rust source.

Effects are made explicit: the embedding runs in a state monad carrying the
transaction-local database view plus an event trace.  Events record lock
acquisitions, probe executions, the cancellation-signal sample, status
writes and dependency-edge mutations, so that ordering and frame claims can
be stated about the trace.
-/

namespace StartOS

/-- Opaque unique identifier of an installed service (`PackageId`). -/
abbrev PackageId := String

/-- Identifier of one health check, unique within one manifest (`HealthCheckId`). -/
abbrev HealthCheckId := String

/-- Result of one health probe (`HealthCheckResult`): `Success { info }` or
`Failure { info }`, as laid out in the data model of the spec. -/
inductive HealthCheckResult where
  | success (info : String)
  | failure (info : String)
deriving DecidableEq, Repr

namespace HealthCheckResult

/-- Mirrors the Rust `matches!(res, HealthCheckResult::Success { .. })`. -/
def isSuccess : HealthCheckResult → Bool
  | .success _ => true
  | .failure _ => false

/-- Mirrors the Rust `matches!(res, HealthCheckResult::Failure { .. })`. -/
def isFailure : HealthCheckResult → Bool
  | .success _ => false
  | .failure _ => true

end HealthCheckResult

/-- The health map kept inside `MainStatus::Running`: a mapping from check id
to result (a `BTreeMap` in the source, embedded as an association list). -/
abbrev HealthMap := List (HealthCheckId × HealthCheckResult)

/-- Service lifecycle status (`MainStatus`).  The core under verification
distinguishes only `Running { health, started }`; the spec declares every
other variant opaque to this core, so they are collapsed into `stopped`. -/
inductive MainStatus where
  | running (health : HealthMap) (started : Nat)
  | stopped
deriving DecidableEq, Repr

namespace MainStatus

/-- Mirrors `MainStatus::started()` as used at line 108 of `health.rs`:
`Some(timestamp)` exactly when the service is running. -/
def started : MainStatus → Option Nat
  | .running _ t => some t
  | .stopped => none

end MainStatus

/-- Immutable per-service configuration (`Manifest`).  Only the ordered set
of health-check definitions is observable by this core; containers, version
and volumes are passed opaquely to the probe runner and never inspected. -/
structure Manifest where
  health_checks : List HealthCheckId
deriving DecidableEq, Repr

/-- Subscription record of one dependent (`CurrentDependencyInfo`): the set
of the dependency's checks the dependent subscribes to (`info.health_checks`
at line 182 of `health.rs`). -/
structure DependencyInfo where
  health_checks : List HealthCheckId
deriving DecidableEq, Repr

/-- `CurrentDependents`: mapping from dependent `PackageId` to its
subscription record, owned by the depended-upon service (a `BTreeMap` in the
source; the list order is the iteration order of line 178). -/
abbrev CurrentDependents := List (PackageId × DependencyInfo)

/-- Tagged reason recorded on a directed dependency edge
(`DependencyError`).  The relevant variant is `HealthChecksFailed`; the
remaining variants of the Rust enum are opaque to this core and collapsed
into `other`. -/
inductive DependencyError where
  | healthChecksFailed (failures : List (HealthCheckId × HealthCheckResult))
  | other (tag : String)
deriving DecidableEq, Repr

/-! ## Association-list store primitives

The Rust code stores every map as a `BTreeMap`.  The embedding uses
association lists with in-place update, which keeps every operation
executable and deterministic. -/

/-- Lookup in an association list (first binding wins). -/
def lookupAL {α β : Type} [DecidableEq α] : List (α × β) → α → Option β
  | [], _ => none
  | (k, v) :: rest, k' => if k = k' then some v else lookupAL rest k'

/-- Insert-or-replace: replaces the first binding of `k` in place, appending
when absent — the update discipline of a map store. -/
def insertAL {α β : Type} [DecidableEq α] (k : α) (v : β) : List (α × β) → List (α × β)
  | [] => [(k, v)]
  | (k', v') :: rest => if k' = k then (k, v) :: rest else (k', v') :: insertAL k v rest

/-- Remove every binding of `k`. -/
def eraseAL {α β : Type} [DecidableEq α] (k : α) (l : List (α × β)) : List (α × β) :=
  l.filter (fun p => p.1 ≠ k)

/-! ## The persisted database -/

/-- Persisted record of one installed service: its status, manifest,
current dependents, and the `DependencyError`s recorded on its outgoing
edges (this service as *dependent*, keyed by the dependency). -/
structure PkgData where
  status : MainStatus
  manifest : Manifest
  current_dependents : CurrentDependents
  dependency_errors : List (PackageId × DependencyError)
deriving DecidableEq, Repr

/-- The slice of the patch-db state observable by this core: per-package
data, keyed by `PackageId`. -/
structure DB where
  pkgs : List (PackageId × PkgData)
deriving DecidableEq, Repr

namespace DB

/-- Status of a package, `none` when not installed. -/
def statusOf (db : DB) (id : PackageId) : Option MainStatus :=
  (lookupAL db.pkgs id).map PkgData.status

/-- Manifest of a package. -/
def manifestOf (db : DB) (id : PackageId) : Option Manifest :=
  (lookupAL db.pkgs id).map PkgData.manifest

/-- Current dependents of a package (empty when not installed). -/
def dependentsOf (db : DB) (id : PackageId) : CurrentDependents :=
  ((lookupAL db.pkgs id).map PkgData.current_dependents).getD []

/-- The `DependencyError` recorded on the edge dependent → dependency,
`none` when the edge is healthy. -/
def edgeError (db : DB) (dependent dependency : PackageId) : Option DependencyError :=
  (lookupAL db.pkgs dependent).bind fun p => lookupAL p.dependency_errors dependency

/-- All dependency errors currently recorded against `dependent`. -/
def depErrorsOf (db : DB) (dependent : PackageId) : List (PackageId × DependencyError) :=
  ((lookupAL db.pkgs dependent).map PkgData.dependency_errors).getD []

/-- Update one package's record in place (no-op when absent, matching a
store whose locations exist only for installed packages). -/
def modifyPkg (db : DB) (id : PackageId) (f : PkgData → PkgData) : DB :=
  ⟨match lookupAL db.pkgs id with
   | some p => insertAL id (f p) db.pkgs
   | none => db.pkgs⟩

/-- Overwrite the status of `id`. -/
def setStatus (db : DB) (id : PackageId) (s : MainStatus) : DB :=
  db.modifyPkg id fun p => { p with status := s }

/-- Record `err` on the edge dependent → dependency, overwriting any
previous error (an edge carries at most one current error). -/
def setEdge (db : DB) (dependent dependency : PackageId) (err : DependencyError) : DB :=
  db.modifyPkg dependent fun p =>
    { p with dependency_errors := insertAL dependency err p.dependency_errors }

/-- Clear the edge dependent → dependency. -/
def clearEdge (db : DB) (dependent dependency : PackageId) : DB :=
  db.modifyPkg dependent fun p =>
    { p with dependency_errors := eraseAL dependency p.dependency_errors }

/-- All service ids occurring in the database, as map keys or as listed
dependents: the universe the propagation walk can ever reach. -/
def nodesOf (db : DB) : List PackageId :=
  (db.pkgs.map Prod.fst ++
    db.pkgs.flatMap fun p => p.2.current_dependents.map Prod.fst).dedup

/-- The dependents adjacency of the database: successors of `p` in the
propagation walk. -/
def depsOf (db : DB) (p : PackageId) : List PackageId :=
  (db.dependentsOf p).map Prod.fst

end DB

/-! ## Effects: errors, events, environment, monad -/

/-- Error taxonomy of the cycle (spec §7): `store` is a lock/read/commit
failure, `propagation` a failure while recording or clearing an edge state.
`fuelOut` is the embedding's marker for a propagation walk that would not
terminate within its fuel; the termination theorem shows the fuel `check`
supplies never runs out. -/
inductive Err where
  | store
  | propagation
  | fuelOut
deriving DecidableEq, Repr

/-- Named lock targets declared by the two receipt batches of `health.rs`. -/
inductive Loc where
  | statusLoc (id : PackageId)
  | manifestLoc (id : PackageId)
  | dependentsLoc (id : PackageId)
deriving DecidableEq, Repr

/-- Lock mode (`LockType::Read` / `LockType::Write`). -/
inductive LockKind where
  | read
  | write
deriving DecidableEq, Repr

/-- Observable events of one cycle, in execution order.  Lock events model
`db.lock_all(locks)` with the declared batch; `probe` models the execution
of one configured health check; `sample` is the single
`should_commit.load(Ordering::SeqCst)`; the write events are the persisted
mutations; `dispatchBreak`/`dispatchHeal` mark the per-dependent decision
of the propagation loop (lines 186-198). -/
inductive Event where
  | lockAll (locks : List (Loc × LockKind))
  | readManifest (id : PackageId)
  | readStatus (id : PackageId)
  | readDependents (id : PackageId)
  | checkpointSave
  | probe (c : HealthCheckId)
  | sample (v : Bool)
  | writeStatus (id : PackageId)
  | writeEdge (dependent dependency : PackageId)
  | clearEdgeEv (dependent dependency : PackageId)
  | breakEnter (dependent : PackageId)
  | healEnter (dependent : PackageId)
  | dispatchBreak (dependent : PackageId) (failures : List (HealthCheckId × HealthCheckResult))
  | dispatchHeal (dependent : PackageId)
  | txSave
deriving DecidableEq, Repr

namespace Event

/-- Probe execution events. -/
def isProbe : Event → Bool
  | .probe _ => true
  | _ => false

/-- Cancellation-signal samples. -/
def isSample : Event → Bool
  | .sample _ => true
  | _ => false

/-- Events that mutate persisted state (status writes, edge mutations). -/
def isMutation : Event → Bool
  | .writeStatus _ => true
  | .writeEdge _ _ => true
  | .clearEdgeEv _ _ => true
  | _ => false

/-- Lock-batch acquisitions. -/
def isLock : Event → Bool
  | .lockAll _ => true
  | _ => false

/-- The per-dependent break/heal decisions of the propagation loop. -/
def isDispatch : Event → Bool
  | .dispatchBreak _ _ => true
  | .dispatchHeal _ => true
  | _ => false

/-- Whether a lock batch requests any write lock. -/
def requestsWrite : Event → Bool
  | .lockAll locks => locks.any fun l => l.2 = LockKind.write
  | _ => false

end Event

/-- Outcome of attempting to execute one probe, as delivered by the probe
engine: either a result, or a failure to execute the probe at all. -/
inductive ProbeOutcome where
  | result (r : HealthCheckResult)
  | execFail (info : String)
deriving DecidableEq, Repr

/-- External collaborators of one cycle: the probe engine's outcome for each
check, the externally owned cancellation signal (`should_commit`), and fault
injectors for the store — `edgeFail` makes recording/clearing the given edge
fail (a `PropagationError`), `saveFail` makes the outer commit fail. -/
structure Env where
  probe : HealthCheckId → ProbeOutcome
  shouldCommit : Bool
  edgeFail : PackageId → PackageId → Bool
  saveFail : Bool

/-- Transaction-local state: the database view (reads observe the most
recent write in the transaction) plus the event trace. -/
structure TxState where
  db : DB
  trace : List Event

/-- The cycle's effect monad: reader access to the environment, state
threading of the transaction view and trace, and store errors.  An error
aborts the computation; the trace survives for observation. -/
def HM (α : Type) : Type :=
  Env → TxState → Except Err α × TxState

namespace HM

/-- Return. -/
def pureH {α : Type} (a : α) : HM α := fun _ s => (.ok a, s)

/-- Sequencing; an error short-circuits. -/
def bindH {α β : Type} (x : HM α) (f : α → HM β) : HM β := fun env s =>
  match x env s with
  | (.ok a, s') => f a env s'
  | (.error e, s') => (.error e, s')

instance : Monad HM where
  pure := pureH
  bind := bindH

/-- Raise a store/propagation error. -/
def throwH {α : Type} (e : Err) : HM α := fun _ s => (.error e, s)

/-- Append an event to the trace. -/
def emit (e : Event) : HM Unit := fun _ s => (.ok (), ⟨s.db, s.trace ++ [e]⟩)

end HM

open HM

/-! ### Store operations

Each operation mirrors one `receipts.….get/set` or `lock_all` call of
`health.rs`.  A read of a location that does not exist (package not
installed) surfaces as a store error, as it would through a `LockReceipt`
with a non-optional target. -/

/-- `db.lock_all(locks)`: atomically acquire a declared batch.  Contention
is outside this model, so acquisition always succeeds; the event records
the batch for the lock-shape claims. -/
def lockAllE (locks : List (Loc × LockKind)) : HM Unit :=
  emit (.lockAll locks)

/-- `receipts.status_model.get` / `receipts.status.get`. -/
def getStatusE (id : PackageId) : HM MainStatus := fun _ s =>
  match s.db.statusOf id with
  | some st => (.ok st, ⟨s.db, s.trace ++ [.readStatus id]⟩)
  | none => (.error .store, s)

/-- `receipts.manifest.get`. -/
def getManifestE (id : PackageId) : HM Manifest := fun _ s =>
  match s.db.manifestOf id with
  | some m => (.ok m, ⟨s.db, s.trace ++ [.readManifest id]⟩)
  | none => (.error .store, s)

/-- `receipts.current_dependents.get`. -/
def getDependentsE (id : PackageId) : HM CurrentDependents := fun _ s =>
  match lookupAL s.db.pkgs id with
  | some p => (.ok p.current_dependents, ⟨s.db, s.trace ++ [.readDependents id]⟩)
  | none => (.error .store, s)

/-- `receipts.status.set(...)` (line 159-168). -/
def setStatusE (id : PackageId) (st : MainStatus) : HM Unit := fun _ s =>
  (.ok (), ⟨s.db.setStatus id st, s.trace ++ [.writeStatus id]⟩)

/-- Record an error on an edge; the injected `edgeFail` fault models a
`PropagationError` while recording an edge state (spec §7). -/
def setEdgeE (dependent dependency : PackageId) (err : DependencyError) : HM Unit :=
  fun env s =>
    if env.edgeFail dependent dependency then (.error .propagation, s)
    else (.ok (), ⟨s.db.setEdge dependent dependency err,
                   s.trace ++ [.writeEdge dependent dependency]⟩)

/-- Clear an edge; same fault injector as `setEdgeE`. -/
def clearEdgeE (dependent dependency : PackageId) : HM Unit :=
  fun env s =>
    if env.edgeFail dependent dependency then (.error .propagation, s)
    else (.ok (), ⟨s.db.clearEdge dependent dependency,
                   s.trace ++ [.clearEdgeEv dependent dependency]⟩)

/-- `checkpoint.save()`: commits the nested scope and releases its locks.
Within the embedding the writes are already visible to the enclosing
transaction, so only the event remains. -/
def checkpointSaveE : HM Unit := emit .checkpointSave

/-- `should_commit.load(Ordering::SeqCst)` (line 131): the single sample of
the externally owned cancellation signal. -/
def sampleCancelE : HM Bool := fun env s =>
  (.ok env.shouldCommit, ⟨s.db, s.trace ++ [.sample env.shouldCommit]⟩)

/-- `tx.save()` (line 201): the outer commit; may fail via the injected
`saveFail` fault (a commit `StoreError`, spec §7). -/
def txSaveE : HM Unit := fun env s =>
  if env.saveFail then (.error .store, s)
  else (.ok (), ⟨s.db, s.trace ++ [.txSave]⟩)

/-! ## Probe runner -/

/-- Modelled from the spec: the probe engine's `runAll` output for the given
check definitions (spec §4.2, §6) — its implementation
(`manifest.health_checks.check_all`, `status/health_check.rs`) is not among
the provided sources.  Per the spec the output is a complete mapping from
every defined check id to a result, and a probe that fails to execute
surfaces as a `Failure` for its id rather than being omitted or escalated. -/
def probeResults (env : Env) (checks : List HealthCheckId) : HealthMap :=
  checks.map fun c =>
    (c, match env.probe c with
        | .result r => r
        | .execFail info => .failure info)

/-- `manifest.health_checks.check_all(ctx, containers, started, id, version,
volumes)` (lines 116-126).  `started` is handed to the engine but does not
influence which checks run; containers, version and volumes are opaque. -/
def runProbes (checks : List HealthCheckId) (startedAt : Nat) : HM HealthMap :=
  fun env s =>
    let _ := startedAt
    (.ok (probeResults env checks),
     ⟨s.db, s.trace ++ checks.map Event.probe⟩)

/-! ## Dependency graph propagation

`break_transitive` and `heal_transitive` live in `dependencies.rs`, which is
not among the provided sources; both walks are modelled from the spec
(§4.5): an explicit work-list plus visited-set algorithm (the representation
the spec's own design note §9 prescribes), threading the visited set through
the whole pass and never re-entering a visited node.  The walk carries fuel
to be a total Lean function; the termination theorem shows the fuel supplied
by `check` is always sufficient. -/

/-- Modelled from the spec: the break transition (§4.5).  Work-list of
(dependent, dependency) edges; a node already in `visited` is skipped.
Processing a new node records/overwrites the error on its edge, then queues
every dependent of that node for transitive re-evaluation.  The spec does
not name the reason recorded on cascaded edges; the given reason is
propagated unchanged.  Returns (error?, database, visited, emitted events);
on an error the database reflects the writes performed so far — they are
transaction-local and discarded by the enclosing transaction. -/
def breakGo (env : Env) (err : DependencyError) :
    Nat → DB → List (PackageId × PackageId) → List PackageId →
    Option Err × DB × List PackageId × List Event
  | _, db, [], visited => (none, db, visited, [])
  | 0, db, _ :: _, visited => (some .fuelOut, db, visited, [])
  | fuel + 1, db, (d, dep) :: rest, visited =>
    if d ∈ visited then breakGo env err fuel db rest visited
    else if env.edgeFail d dep then (some .propagation, db, visited, [.breakEnter d])
    else
      let db' := db.setEdge d dep err
      let pushed := (db'.depsOf d).map fun x => (x, d)
      let r := breakGo env err fuel db' (pushed ++ rest) (d :: visited)
      (r.1, r.2.1, r.2.2.1, .breakEnter d :: .writeEdge d dep :: r.2.2.2)

/-- Modelled from the spec: the heal transition (§4.5).  A node already in
`visited` is skipped; otherwise any existing `DependencyError` attributable
to the edge's dependency is cleared, and exactly when this removal makes the
dependent itself fully healthy (an error existed and no dependency error
remains), every dependent of that node is queued for transitive healing. -/
def healGo (env : Env) :
    Nat → DB → List (PackageId × PackageId) → List PackageId →
    Option Err × DB × List PackageId × List Event
  | _, db, [], visited => (none, db, visited, [])
  | 0, db, _ :: _, visited => (some .fuelOut, db, visited, [])
  | fuel + 1, db, (d, dep) :: rest, visited =>
    if d ∈ visited then healGo env fuel db rest visited
    else
      match db.edgeError d dep with
      | none =>
        let r := healGo env fuel db rest (d :: visited)
        (r.1, r.2.1, r.2.2.1, .healEnter d :: r.2.2.2)
      | some _ =>
        if env.edgeFail d dep then (some .propagation, db, visited, [.healEnter d])
        else
          let db' := db.clearEdge d dep
          if db'.depErrorsOf d = [] then
            let pushed := (db'.depsOf d).map fun x => (x, d)
            let r := healGo env fuel db' (pushed ++ rest) (d :: visited)
            (r.1, r.2.1, r.2.2.1, .healEnter d :: .clearEdgeEv d dep :: r.2.2.2)
          else
            let r := healGo env fuel db' rest (d :: visited)
            (r.1, r.2.1, r.2.2.1, .healEnter d :: .clearEdgeEv d dep :: r.2.2.2)

/-- The fuel `check` hands to one propagation pass.  One unit is consumed
per work-list step; the number of steps is bounded by the initial stack
plus, for every node the walk can newly visit, one processing step and one
stack entry per successor, so this budget always suffices. -/
def passFuel (db : DB) : Nat :=
  2 + ∑ n ∈ db.nodesOf.toFinset, (1 + (db.depsOf n).length)

/-- Modelled from the spec: `break_transitive(tx, dependent, id, error,
visited, receipts)` as invoked at lines 187-195 — the recursive break
cascade over the transaction, threading the caller's visited set. -/
def breakTransitiveE (dependent dependency : PackageId) (err : DependencyError)
    (visited : List PackageId) : HM Unit := fun env s =>
  let r := breakGo env err (passFuel s.db) s.db [(dependent, dependency)] visited
  match r.1 with
  | some e => (.error e, ⟨r.2.1, s.trace ++ r.2.2.2⟩)
  | none => (.ok (), ⟨r.2.1, s.trace ++ r.2.2.2⟩)

/-- Modelled from the spec: `heal_transitive(ctx, tx, dependent, id,
receipt)` as invoked at line 197 — the recursive heal cascade; the visited
set is created fresh inside the call (the call site passes none). -/
def healTransitiveE (dependent dependency : PackageId) : HM Unit := fun env s =>
  let r := healGo env (passFuel s.db) s.db [(dependent, dependency)] []
  match r.1 with
  | some e => (.error e, ⟨r.2.1, s.trace ++ r.2.2.2⟩)
  | none => (.ok (), ⟨r.2.1, s.trace ++ r.2.2.2⟩)

/-- The failures computed for one dependent (lines 179-184): the probe
results restricted first to non-`Success` results, then to the check ids the
dependent subscribes to — mirroring the two `filter` calls of the source. -/
def computeFailures (results : HealthMap) (info : DependencyInfo) : HealthMap :=
  (results.filter fun p => ¬ p.2.isSuccess).filter fun p =>
    info.health_checks.contains p.1

/-- The propagation loop over `(current_dependents).0.iter()` (lines
178-199): for each dependent compute its failing subset; break with
`DependencyError::HealthChecksFailed { failures }` when non-empty, heal
otherwise, a fresh visited set per top-level evaluation. -/
def propagateList (id : PackageId) (results : HealthMap) :
    List (PackageId × DependencyInfo) → HM Unit
  | [] => pure ()
  | (dependent, info) :: rest => do
    let failures := computeFailures results info
    if failures.isEmpty then
      emit (.dispatchHeal dependent)
      healTransitiveE dependent id
    else
      emit (.dispatchBreak dependent failures)
      breakTransitiveE dependent id (.healthChecksFailed failures) []
    propagateList id results rest

/-- Checkpoint B (lines 152-174): write lock on status, read lock on
current dependents; re-read the status; when it is still `Running`, replace
the health map with the fresh results, carrying over the `started` that was
just re-read; read the current dependents; commit the checkpoint. -/
def writeCheckpoint (id : PackageId) (results : HealthMap) : HM CurrentDependents := do
  lockAllE [(.statusLoc id, .write), (.dependentsLoc id, .read)]
  let status ← getStatusE id
  match status with
  | .running _ started => setStatusE id (.running results started)
  | .stopped => pure ()
  let deps ← getDependentsE id
  checkpointSaveE
  pure deps

/-- Lines 152-203: everything `check` does once the result is to be
committed — checkpoint B, the propagation loop, and the outer `tx.save()`. -/
def commitPhase (id : PackageId) (results : HealthMap) : HM Unit := do
  let deps ← writeCheckpoint id results
  propagateList id results deps
  txSaveE

/-- `pub async fn check(ctx, db, id, should_commit)` (lines 95-204):
checkpoint A reads the manifest and `started` under the read-lock pair and
commits; a service that is not started ends the cycle successfully; the
probes run; the cancellation signal is sampled once; a cleared signal ends
the cycle successfully; otherwise the commit phase runs. -/
def check (id : PackageId) : HM Unit := do
  lockAllE [(.statusLoc id, .read), (.manifestLoc id, .read)]
  let manifest ← getManifestE id
  let startedOpt := MainStatus.started (← getStatusE id)
  checkpointSaveE
  match startedOpt with
  | none => pure ()
  | some started => do
    let results ← runProbes manifest.health_checks started
    let sc ← sampleCancelE
    if sc then commitPhase id results else pure ()

/-- Outcome of one cycle as seen from outside the outer transaction. -/
structure RunResult where
  db : DB
  trace : List Event
  committed : Bool
deriving DecidableEq, Repr

/-- Modelled from the spec: the outer transaction `db.begin()` … `tx.save()`
enclosing one cycle (§4.1, §5) — the patch-db engine is an external
collaborator.  The outer transaction is all-or-nothing: when the cycle ends
in an error the transaction never commits and the persisted database is
untouched; otherwise the transaction-local view becomes the persisted
state. -/
def runCheck (env : Env) (db : DB) (id : PackageId) : RunResult :=
  match check id env ⟨db, []⟩ with
  | (.ok _, s) => ⟨s.db, s.trace, true⟩
  | (.error _, s) => ⟨db, s.trace, false⟩

/-- The nodes actually entered (processed) by a propagation pass, read off
its event trace. -/
def enterNodes (ev : List Event) : List PackageId :=
  ev.filterMap fun e =>
    match e with
    | .breakEnter d => some d
    | .healEnter d => some d
    | _ => none

/-- The dispatch decision the propagation loop records for one dependent:
heal when the computed failing subset is empty, break with
`HealthChecksFailed` of exactly that subset otherwise. -/
def dispatchEv (results : HealthMap) (p : PackageId × DependencyInfo) : Event :=
  if (computeFailures results p.2).isEmpty then .dispatchHeal p.1
  else .dispatchBreak p.1 (computeFailures results p.2)

/-- The events of checkpoint A: the read-lock pair, the two reads, and the
checkpoint commit that releases the locks. -/
def readTrace (id : PackageId) : List Event :=
  [.lockAll [(.statusLoc id, .read), (.manifestLoc id, .read)],
   .readManifest id, .readStatus id, .checkpointSave]

/-- The probe-phase events: one execution per manifest-defined check. -/
def probeTrace (m : Manifest) : List Event :=
  m.health_checks.map Event.probe

/-! ## Write lists and well-formed databases

Machinery for the idempotence analysis: one propagation pass is a list of
edge writes applied in order, and a database read out of `BTreeMap`s has
duplicate-free keys. -/

/-- Apply a list of edge writes in order. -/
def applyWritesL (db : DB) (ws : List ((PackageId × PackageId) × DependencyError)) : DB :=
  ws.foldl (fun d w => d.setEdge w.1.1 w.1.2 w.2) db

/-- Well-formedness inherited from the `BTreeMap` store: package keys and
each package's dependency-error keys are duplicate-free. -/
def DB.WF (db : DB) : Prop :=
  (db.pkgs.map Prod.fst).Nodup ∧
  ∀ p ∈ db.pkgs, (p.2.dependency_errors.map Prod.fst).Nodup

/-! ## Edge-exempt database similarity

Two databases are similar up to a set `S` of edges when they agree
structurally everywhere except possibly at the recorded errors of edges in
`S`.  Applying one write sequence covering `S` to two similar databases
yields equal databases; this drives the write-absorption argument. -/

/-- Entry-wise similarity of dependency-error lists of package `k`:
equal keys, and equal values except at exempted edges. -/
def errSim (S : List (PackageId × PackageId)) (k : PackageId)
    (x y : PackageId × DependencyError) : Prop :=
  x.1 = y.1 ∧ (x.2 = y.2 ∨ (k, x.1) ∈ S)

/-- Entry-wise similarity of package records: equal keys and fields except
possibly the exempted dependency errors. -/
def pkgSim (S : List (PackageId × PackageId)) (x y : PackageId × PkgData) : Prop :=
  x.1 = y.1 ∧ x.2.status = y.2.status ∧ x.2.manifest = y.2.manifest ∧
    x.2.current_dependents = y.2.current_dependents ∧
    List.Forall₂ (errSim S x.1) x.2.dependency_errors y.2.dependency_errors

/-- Databases equal except possibly at the errors of edges in `S`. -/
def DBSim (S : List (PackageId × PackageId)) (d₁ d₂ : DB) : Prop :=
  List.Forall₂ (pkgSim S) d₁.pkgs d₂.pkgs

/-- Counterexample database for the idempotence claim: the monitored
service P has dependents A, B and C; the dependents adjacency continues
A → P (a cycle through P), B → Y, C → X and C → Y, Y → X. -/
def cdb8 : DB := ⟨[
  ("P", ⟨.running [] 5, ⟨["cA", "cB", "cC"]⟩,
    [("A", ⟨["cA"]⟩), ("B", ⟨["cB"]⟩), ("C", ⟨["cC"]⟩)], []⟩),
  ("A", ⟨.stopped, ⟨[]⟩, [("P", ⟨[]⟩)], []⟩),
  ("B", ⟨.stopped, ⟨[]⟩, [("Y", ⟨[]⟩)], []⟩),
  ("C", ⟨.stopped, ⟨[]⟩, [("X", ⟨[]⟩), ("Y", ⟨[]⟩)], []⟩),
  ("X", ⟨.stopped, ⟨[]⟩, [], []⟩),
  ("Y", ⟨.stopped, ⟨[]⟩, [("X", ⟨[]⟩)], []⟩)]⟩

/-- Counterexample environment: check cB succeeds, every other check
fails; the cycle is told to commit and no fault is injected. -/
def cenv8 : Env :=
  ⟨fun c => if c = "cB" then .result (.success "ok") else .result (.failure "f"),
   true, fun _ _ => false, false⟩

/-- Witness database: P running with one failing check, one dependent A
subscribed to it. -/
def wdb8 : DB := ⟨[
  ("P", ⟨.running [] 5, ⟨["c"]⟩, [("A", ⟨["c"]⟩)], []⟩),
  ("A", ⟨.stopped, ⟨[]⟩, [], []⟩)]⟩

/-- Witness environment: the single check fails, commit, no faults. -/
def wenv8 : Env := ⟨fun _ => .result (.failure "f"), true, fun _ _ => false, false⟩

/-! ## Association-list and monad run lemmas -/

@[simp] theorem lookupAL_nil {α β : Type} [DecidableEq α] (k : α) :
    lookupAL ([] : List (α × β)) k = none := rfl

@[simp] theorem lookupAL_cons {α β : Type} [DecidableEq α] (k k' : α) (v : β) (l : List (α × β)) :
    lookupAL ((k, v) :: l) k' = if k = k' then some v else lookupAL l k' := rfl

/-- Replacing a binding with the value it already has is the identity. -/
theorem insertAL_self {α β : Type} [DecidableEq α] (k : α) (v : β) :
    ∀ l : List (α × β), lookupAL l k = some v → insertAL k v l = l := by
  intro l
  induction l with
  | nil => simp [lookupAL]
  | cons p rest ih =>
    obtain ⟨k', v'⟩ := p
    intro h
    by_cases hk : k' = k
    · subst hk
      simp [lookupAL] at h
      simp [insertAL, h]
    · simp [lookupAL, hk] at h
      simp [insertAL, hk, ih h]

/-- Erasing an absent key is the identity. -/
theorem eraseAL_not_mem {α β : Type} [DecidableEq α] (k : α) :
    ∀ l : List (α × β), lookupAL l k = none → eraseAL k l = l := by
  intro l
  induction l with
  | nil => simp [eraseAL]
  | cons p rest ih =>
    obtain ⟨k', v'⟩ := p
    intro h
    by_cases hk : k' = k
    · subst hk
      simp [lookupAL] at h
    · simp [lookupAL, hk] at h
      simpa [eraseAL, hk] using congrArg (List.cons (k', v')) (ih h)

@[simp] theorem HM.run_pure {α : Type} (a : α) (env : Env) (s : TxState) :
    (pure a : HM α) env s = (.ok a, s) := rfl

@[simp] theorem HM.run_bind {α β : Type} (x : HM α) (f : α → HM β) (env : Env) (s : TxState) :
    (x >>= f) env s =
      match x env s with
      | (.ok a, s') => f a env s'
      | (.error e, s') => (.error e, s') := rfl

@[simp] theorem HM.run_throw {α : Type} (e : Err) (env : Env) (s : TxState) :
    (throwH e : HM α) env s = (.error e, s) := rfl

@[simp] theorem HM.run_emit (e : Event) (env : Env) (s : TxState) :
    emit e env s = (.ok (), ⟨s.db, s.trace ++ [e]⟩) := rfl

/-! ## Basic run lemmas for the store operations -/

@[simp] theorem run_lockAllE (locks : List (Loc × LockKind)) (env : Env) (s : TxState) :
    lockAllE locks env s = (.ok (), ⟨s.db, s.trace ++ [.lockAll locks]⟩) := rfl

@[simp] theorem run_checkpointSaveE (env : Env) (s : TxState) :
    checkpointSaveE env s = (.ok (), ⟨s.db, s.trace ++ [.checkpointSave]⟩) := rfl

@[simp] theorem run_sampleCancelE (env : Env) (s : TxState) :
    sampleCancelE env s = (.ok env.shouldCommit, ⟨s.db, s.trace ++ [.sample env.shouldCommit]⟩) :=
  rfl

@[simp] theorem run_setStatusE (id : PackageId) (st : MainStatus) (env : Env) (s : TxState) :
    setStatusE id st env s = (.ok (), ⟨s.db.setStatus id st, s.trace ++ [.writeStatus id]⟩) := rfl

@[simp] theorem run_runProbes (checks : List HealthCheckId) (t : Nat) (env : Env) (s : TxState) :
    runProbes checks t env s =
      (.ok (probeResults env checks), ⟨s.db, s.trace ++ checks.map Event.probe⟩) := rfl

theorem run_getStatusE_some {db : DB} {id : PackageId} {st : MainStatus}
    (h : db.statusOf id = some st) (env : Env) (tr : List Event) :
    getStatusE id env ⟨db, tr⟩ = (.ok st, ⟨db, tr ++ [.readStatus id]⟩) := by
  simp [getStatusE, h]

theorem run_getManifestE_some {db : DB} {id : PackageId} {m : Manifest}
    (h : db.manifestOf id = some m) (env : Env) (tr : List Event) :
    getManifestE id env ⟨db, tr⟩ = (.ok m, ⟨db, tr ++ [.readManifest id]⟩) := by
  simp [getManifestE, h]

theorem run_getDependentsE_some {db : DB} {id : PackageId} {p : PkgData}
    (h : lookupAL db.pkgs id = some p) (env : Env) (tr : List Event) :
    getDependentsE id env ⟨db, tr⟩ =
      (.ok p.current_dependents, ⟨db, tr ++ [.readDependents id]⟩) := by
  simp [getDependentsE, h]

theorem run_txSaveE_ok {env : Env} (h : env.saveFail = false) (s : TxState) :
    txSaveE env s = (.ok (), ⟨s.db, s.trace ++ [.txSave]⟩) := by
  simp [txSaveE, h]

/-! ## Store preservation lemmas

Edge mutations touch only the `dependency_errors` field of one package, so
statuses, manifests and the dependents adjacency — hence the node universe
of the propagation walk — are invariant under them. -/

theorem lookupAL_insertAL {α β : Type} [DecidableEq α] (k k' : α) (v : β) :
    ∀ l : List (α × β),
      lookupAL (insertAL k v l) k' = if k = k' then some v else lookupAL l k' := by
  intro l
  induction l with
  | nil => simp [insertAL, lookupAL]
  | cons p rest ih =>
    obtain ⟨k₀, v₀⟩ := p
    by_cases hk : k₀ = k
    · subst hk
      by_cases hk' : k₀ = k'
      · subst hk'; simp [insertAL, lookupAL]
      · simp [insertAL, lookupAL, hk']
    · by_cases hk' : k₀ = k'
      · subst hk'
        have : ¬ k = k₀ := fun he => hk he.symm
        simp [insertAL, lookupAL, hk, this]
      · simp [insertAL, lookupAL, hk, hk', ih]

theorem insertAL_map_congr {α β γ : Type} [DecidableEq α] (k : α) (v w : β) (g : α × β → γ) :
    ∀ l : List (α × β), lookupAL l k = some w → g (k, v) = g (k, w) →
      (insertAL k v l).map g = l.map g := by
  intro l
  induction l with
  | nil => intro h _; simp [lookupAL] at h
  | cons p rest ih =>
    obtain ⟨k₀, v₀⟩ := p
    intro h hg
    by_cases hk : k₀ = k
    · subst hk
      simp [lookupAL] at h
      subst h
      simp [insertAL, hg]
    · simp [lookupAL, hk] at h
      simp [insertAL, hk, ih h hg]

theorem DB.pkgs_map_fst_modifyPkg (db : DB) (id : PackageId) (f : PkgData → PkgData) :
    (db.modifyPkg id f).pkgs.map Prod.fst = db.pkgs.map Prod.fst := by
  unfold DB.modifyPkg
  cases h : lookupAL db.pkgs id with
  | none => rfl
  | some p =>
    simpa using insertAL_map_congr id (f p) p Prod.fst db.pkgs h rfl

theorem DB.lookupAL_modifyPkg (db : DB) (id q : PackageId) (f : PkgData → PkgData) :
    lookupAL (db.modifyPkg id f).pkgs q =
      match lookupAL db.pkgs id with
      | some p => if id = q then some (f p) else lookupAL db.pkgs q
      | none => lookupAL db.pkgs q := by
  unfold DB.modifyPkg
  cases h : lookupAL db.pkgs id with
  | none => rfl
  | some p => simp [lookupAL_insertAL]

theorem DB.statusOf_modifyPkg (db : DB) (id q : PackageId) (f : PkgData → PkgData)
    (hf : ∀ p, (f p).status = p.status) :
    (db.modifyPkg id f).statusOf q = db.statusOf q := by
  unfold DB.statusOf
  rw [DB.lookupAL_modifyPkg]
  cases h : lookupAL db.pkgs id with
  | none => rfl
  | some p =>
    by_cases hq : id = q
    · subst hq; simp [h, hf]
    · simp [hq]

theorem DB.manifestOf_modifyPkg (db : DB) (id q : PackageId) (f : PkgData → PkgData)
    (hf : ∀ p, (f p).manifest = p.manifest) :
    (db.modifyPkg id f).manifestOf q = db.manifestOf q := by
  unfold DB.manifestOf
  rw [DB.lookupAL_modifyPkg]
  cases h : lookupAL db.pkgs id with
  | none => rfl
  | some p =>
    by_cases hq : id = q
    · subst hq; simp [h, hf]
    · simp [hq]

theorem DB.dependentsOf_modifyPkg (db : DB) (id q : PackageId) (f : PkgData → PkgData)
    (hf : ∀ p, (f p).current_dependents = p.current_dependents) :
    (db.modifyPkg id f).dependentsOf q = db.dependentsOf q := by
  unfold DB.dependentsOf
  rw [DB.lookupAL_modifyPkg]
  cases h : lookupAL db.pkgs id with
  | none => rfl
  | some p =>
    by_cases hq : id = q
    · subst hq; simp [h, hf]
    · simp [hq]

theorem DB.nodesOf_modifyPkg (db : DB) (id : PackageId) (f : PkgData → PkgData)
    (hf : ∀ p, (f p).current_dependents = p.current_dependents) :
    (db.modifyPkg id f).nodesOf = db.nodesOf := by
  unfold DB.nodesOf DB.modifyPkg
  cases h : lookupAL db.pkgs id with
  | none => rfl
  | some p =>
    have h1 : (insertAL id (f p) db.pkgs).map Prod.fst = db.pkgs.map Prod.fst :=
      insertAL_map_congr id (f p) p Prod.fst db.pkgs h rfl
    have h2 : (insertAL id (f p) db.pkgs).map (fun q => q.2.current_dependents.map Prod.fst) =
        db.pkgs.map fun q => q.2.current_dependents.map Prod.fst :=
      insertAL_map_congr id (f p) p _ db.pkgs h (by simp [hf])
    have h3 : (insertAL id (f p) db.pkgs).flatMap (fun q => q.2.current_dependents.map Prod.fst) =
        db.pkgs.flatMap fun q => q.2.current_dependents.map Prod.fst := by
      show ((insertAL id (f p) db.pkgs).map fun q => q.2.current_dependents.map Prod.fst).flatten
        = (db.pkgs.map fun q => q.2.current_dependents.map Prod.fst).flatten
      rw [h2]
    rw [h1, h3]

/-- `setEdge` preserves every status. -/
theorem DB.statusOf_setEdge (db : DB) (a b : PackageId) (e : DependencyError) (q : PackageId) :
    (db.setEdge a b e).statusOf q = db.statusOf q :=
  DB.statusOf_modifyPkg db a q _ (by intro p; rfl)

/-- `clearEdge` preserves every status. -/
theorem DB.statusOf_clearEdge (db : DB) (a b : PackageId) (q : PackageId) :
    (db.clearEdge a b).statusOf q = db.statusOf q :=
  DB.statusOf_modifyPkg db a q _ (by intro p; rfl)

/-- `setStatus` elsewhere preserves manifests. -/
theorem DB.manifestOf_setStatus (db : DB) (id : PackageId) (st : MainStatus) (q : PackageId) :
    (db.setStatus id st).manifestOf q = db.manifestOf q :=
  DB.manifestOf_modifyPkg db id q _ (by intro p; rfl)

theorem DB.manifestOf_setEdge (db : DB) (a b : PackageId) (e : DependencyError) (q : PackageId) :
    (db.setEdge a b e).manifestOf q = db.manifestOf q :=
  DB.manifestOf_modifyPkg db a q _ (by intro p; rfl)

theorem DB.manifestOf_clearEdge (db : DB) (a b : PackageId) (q : PackageId) :
    (db.clearEdge a b).manifestOf q = db.manifestOf q :=
  DB.manifestOf_modifyPkg db a q _ (by intro p; rfl)

theorem DB.dependentsOf_setStatus (db : DB) (id : PackageId) (st : MainStatus) (q : PackageId) :
    (db.setStatus id st).dependentsOf q = db.dependentsOf q :=
  DB.dependentsOf_modifyPkg db id q _ (by intro p; rfl)

theorem DB.dependentsOf_setEdge (db : DB) (a b : PackageId) (e : DependencyError)
    (q : PackageId) : (db.setEdge a b e).dependentsOf q = db.dependentsOf q :=
  DB.dependentsOf_modifyPkg db a q _ (by intro p; rfl)

theorem DB.dependentsOf_clearEdge (db : DB) (a b : PackageId) (q : PackageId) :
    (db.clearEdge a b).dependentsOf q = db.dependentsOf q :=
  DB.dependentsOf_modifyPkg db a q _ (by intro p; rfl)

theorem DB.depsOf_setEdge (db : DB) (a b : PackageId) (e : DependencyError) (q : PackageId) :
    (db.setEdge a b e).depsOf q = db.depsOf q := by
  unfold DB.depsOf; rw [DB.dependentsOf_setEdge]

theorem DB.depsOf_clearEdge (db : DB) (a b : PackageId) (q : PackageId) :
    (db.clearEdge a b).depsOf q = db.depsOf q := by
  unfold DB.depsOf; rw [DB.dependentsOf_clearEdge]

theorem DB.depsOf_setStatus (db : DB) (id : PackageId) (st : MainStatus) (q : PackageId) :
    (db.setStatus id st).depsOf q = db.depsOf q := by
  unfold DB.depsOf; rw [DB.dependentsOf_setStatus]

theorem DB.nodesOf_setEdge (db : DB) (a b : PackageId) (e : DependencyError) :
    (db.setEdge a b e).nodesOf = db.nodesOf :=
  DB.nodesOf_modifyPkg db a _ (by intro p; rfl)

theorem DB.nodesOf_clearEdge (db : DB) (a b : PackageId) :
    (db.clearEdge a b).nodesOf = db.nodesOf :=
  DB.nodesOf_modifyPkg db a _ (by intro p; rfl)

theorem DB.nodesOf_setStatus (db : DB) (id : PackageId) (st : MainStatus) :
    (db.setStatus id st).nodesOf = db.nodesOf :=
  DB.nodesOf_modifyPkg db id _ (by intro p; rfl)

/-- A successful lookup is a membership witness. -/
theorem lookupAL_mem {α β : Type} [DecidableEq α] {k : α} {v : β} :
    ∀ {l : List (α × β)}, lookupAL l k = some v → (k, v) ∈ l := by
  intro l
  induction l with
  | nil => intro h; simp [lookupAL] at h
  | cons hd rest ih =>
    obtain ⟨k₀, v₀⟩ := hd
    intro h
    by_cases hk : k₀ = k
    · subst hk
      rw [lookupAL_cons] at h
      simp at h
      simp [h]
    · rw [lookupAL_cons] at h
      simp [hk] at h
      simp [ih h]

/-- Every node reached by one step of the dependents adjacency is in the
node universe. -/
theorem DB.depsOf_subset_nodesOf (db : DB) (p x : PackageId) (hx : x ∈ db.depsOf p) :
    x ∈ db.nodesOf := by
  unfold DB.depsOf DB.dependentsOf at hx
  unfold DB.nodesOf
  cases h : lookupAL db.pkgs p with
  | none => rw [h] at hx; simp at hx
  | some d =>
    rw [h] at hx
    simp only [Option.map, Option.getD] at hx
    rw [List.mem_dedup]
    refine List.mem_append.mpr (Or.inr ?_)
    exact List.mem_flatMap.mpr ⟨(p, d), lookupAL_mem h, hx⟩

/-- Every listed dependent of an installed package is in the node universe. -/
theorem DB.dependent_mem_nodesOf (db : DB) (id : PackageId) {p : PkgData}
    (h : lookupAL db.pkgs id = some p) {x : PackageId}
    (hx : x ∈ p.current_dependents.map Prod.fst) : x ∈ db.nodesOf := by
  have : x ∈ db.depsOf id := by
    unfold DB.depsOf DB.dependentsOf
    rw [h]
    simpa using hx
  exact DB.depsOf_subset_nodesOf db id x this

/-- The node universe has no duplicates. -/
theorem DB.nodesOf_nodup (db : DB) : db.nodesOf.Nodup := List.nodup_dedup _

/-! ## Propagation-walk lemmas -/

/-- The break walk only mutates dependency edges: every package's status,
manifest, dependents adjacency and the node universe are untouched. -/
theorem breakGo_pres (env : Env) (err : DependencyError) (fuel : Nat) (db : DB)
    (stack : List (PackageId × PackageId)) (visited : List PackageId) :
    (∀ q, ((breakGo env err fuel db stack visited).2.1).statusOf q = db.statusOf q) ∧
    (∀ q, ((breakGo env err fuel db stack visited).2.1).manifestOf q = db.manifestOf q) ∧
    (∀ q, ((breakGo env err fuel db stack visited).2.1).dependentsOf q = db.dependentsOf q) ∧
    ((breakGo env err fuel db stack visited).2.1).nodesOf = db.nodesOf := by
  induction fuel, db, stack, visited using breakGo.induct env err with
  | case1 t db visited => simp [breakGo]
  | case2 db head tail visited => simp [breakGo]
  | case3 fuel db d dep rest visited hmem ih =>
    rw [breakGo.eq_def]
    simpa [hmem] using ih
  | case4 fuel db d dep rest visited hmem hfail =>
    rw [breakGo.eq_def]
    simp [hmem, hfail]
  | case5 fuel db d dep rest visited hmem hfail dbl pushl ih =>
    rw [breakGo.eq_def]
    simp only [if_neg hmem, if_neg hfail]
    refine ⟨?_, ?_, ?_, ?_⟩
    · intro q
      rw [ih.1 q, DB.statusOf_setEdge]
    · intro q
      rw [ih.2.1 q, DB.manifestOf_setEdge]
    · intro q
      rw [ih.2.2.1 q, DB.dependentsOf_setEdge]
    · rw [ih.2.2.2, DB.nodesOf_setEdge]

/-- Every event emitted by the break walk is a break-enter or an edge
write: in particular none is a probe, a sample, a lock acquisition, a
status write or a dispatch. -/
theorem breakGo_events (env : Env) (err : DependencyError) (fuel : Nat) (db : DB)
    (stack : List (PackageId × PackageId)) (visited : List PackageId) :
    ∀ e ∈ (breakGo env err fuel db stack visited).2.2.2,
      (∃ d, e = .breakEnter d) ∨ ∃ d dep, e = .writeEdge d dep := by
  induction fuel, db, stack, visited using breakGo.induct env err with
  | case1 t db visited => simp [breakGo]
  | case2 db head tail visited => simp [breakGo]
  | case3 fuel db d dep rest visited hmem ih =>
    rw [breakGo.eq_def]
    simpa [hmem] using ih
  | case4 fuel db d dep rest visited hmem hfail =>
    rw [breakGo.eq_def]
    simp [hmem, hfail]
  | case5 fuel db d dep rest visited hmem hfail dbl pushl ih =>
    rw [breakGo.eq_def]
    simp only [if_neg hmem, if_neg hfail]
    intro e he
    simp only [List.mem_cons] at he
    rcases he with he | he | he
    · exact Or.inl ⟨d, he⟩
    · exact Or.inr ⟨d, dep, he⟩
    · exact ih e he

/-- Fuel-sufficiency and single-visit discipline of the break walk: with no
injected propagation fault, every stacked dependent in the node universe and
fuel exceeding the number of not-yet-visited nodes, the walk succeeds; the
visited set only grows, stays duplicate-free, and the walk enters exactly
the newly visited nodes — each at most once. -/
theorem breakGo_ok (env : Env) (err : DependencyError)
    (hf : ∀ a b, env.edgeFail a b = false) :
    ∀ (fuel : Nat) (db : DB) (stack : List (PackageId × PackageId))
      (visited : List PackageId),
      (∀ p ∈ stack, p.1 ∈ db.nodesOf) →
      stack.length +
        (∑ n ∈ db.nodesOf.toFinset \ visited.toFinset, (1 + (db.depsOf n).length)) < fuel →
      visited.Nodup →
      (breakGo env err fuel db stack visited).1 = none ∧
      ∃ new, (breakGo env err fuel db stack visited).2.2.1 = new ++ visited ∧
        (new ++ visited).Nodup ∧
        enterNodes (breakGo env err fuel db stack visited).2.2.2 = new.reverse := by
  intro fuel db stack visited
  induction fuel, db, stack, visited using breakGo.induct env err with
  | case1 t db visited =>
    intro _ _ hnd
    refine ⟨by simp [breakGo], [], by simp [breakGo], by simpa using hnd,
      by simp [breakGo, enterNodes]⟩
  | case2 db head tail visited =>
    intro _ hcount _
    omega
  | case3 fuel db d dep rest visited hmem ih =>
    intro hstack hcount hnd
    have := ih (fun p hp => hstack p (List.mem_cons_of_mem _ hp))
      (by simp only [List.length_cons] at hcount; omega) hnd
    rw [breakGo.eq_def]
    simpa [hmem] using this
  | case4 fuel db d dep rest visited hmem hfail =>
    intro _ _ _
    rw [hf] at hfail
    exact absurd hfail (by simp)
  | case5 fuel db d dep rest visited hmem hfail dbl pushl ih =>
    intro hstack hcount hnd
    have hdmem : d ∈ db.nodesOf := hstack (d, dep) (List.mem_cons_self _ _)
    have hdvis : d ∈ db.nodesOf.toFinset \ visited.toFinset := by
      simp [hmem, hdmem]
    have herase :
        (∑ n ∈ (db.nodesOf.toFinset \ visited.toFinset).erase d,
            (1 + (db.depsOf n).length)) + (1 + (db.depsOf d).length) =
          ∑ n ∈ db.nodesOf.toFinset \ visited.toFinset, (1 + (db.depsOf n).length) :=
      Finset.sum_erase_add _ _ hdvis
    have hsdiff : db.nodesOf.toFinset \ (d :: visited).toFinset =
        (db.nodesOf.toFinset \ visited.toFinset).erase d := by
      rw [List.toFinset_cons, Finset.sdiff_insert]
    have hsum_eq : ∀ (dd : DB), dd.nodesOf = db.nodesOf →
        (∀ q, dd.depsOf q = db.depsOf q) → ∀ (t : Finset PackageId),
        (∑ n ∈ t, (1 + (dd.depsOf n).length)) = ∑ n ∈ t, (1 + (db.depsOf n).length) := by
      intro dd _ hdeps t
      exact Finset.sum_congr rfl fun n _ => by rw [hdeps n]
    have hcount' :
        (((db.setEdge d dep err).depsOf d).map (fun x => (x, d)) ++ rest).length +
          (∑ n ∈ (db.setEdge d dep err).nodesOf.toFinset \ (d :: visited).toFinset,
            (1 + ((db.setEdge d dep err).depsOf n).length)) < fuel := by
      rw [DB.nodesOf_setEdge]
      rw [hsum_eq (db.setEdge d dep err) (DB.nodesOf_setEdge db d dep err)
        (fun q => DB.depsOf_setEdge db d dep err q)]
      rw [hsdiff]
      simp only [List.length_append, List.length_map, DB.depsOf_setEdge]
      simp only [List.length_cons] at hcount
      omega
    have hstack' : ∀ p ∈ ((db.setEdge d dep err).depsOf d).map (fun x => (x, d)) ++ rest,
        p.1 ∈ (db.setEdge d dep err).nodesOf := by
      intro p hp
      rcases List.mem_append.mp hp with hp | hp
      · obtain ⟨x, hx, rfl⟩ := List.mem_map.mp hp
        exact DB.depsOf_subset_nodesOf _ d x hx
      · rw [DB.nodesOf_setEdge]
        exact hstack p (List.mem_cons_of_mem _ hp)
    have hnd' : (d :: visited).Nodup := List.nodup_cons.mpr ⟨hmem, hnd⟩
    obtain ⟨hok, new, hv, hndv, hent⟩ := ih hstack' hcount' hnd'
    rw [breakGo.eq_def]
    simp only [if_neg hmem, if_neg hfail]
    refine ⟨hok, new ++ [d], ?_, ?_, ?_⟩
    · rw [hv]; simp
    · have hperm : (new ++ [d] ++ visited).Perm (new ++ d :: visited) := by
        simp
      exact hperm.nodup_iff.mpr hndv
    · simp only [enterNodes, List.filterMap_cons] at hent ⊢
      rw [hent]
      simp

/-- The heal walk only mutates dependency edges: every package's status,
manifest, dependents adjacency and the node universe are untouched. -/
theorem healGo_pres (env : Env) (fuel : Nat) (db : DB)
    (stack : List (PackageId × PackageId)) (visited : List PackageId) :
    (∀ q, ((healGo env fuel db stack visited).2.1).statusOf q = db.statusOf q) ∧
    (∀ q, ((healGo env fuel db stack visited).2.1).manifestOf q = db.manifestOf q) ∧
    (∀ q, ((healGo env fuel db stack visited).2.1).dependentsOf q = db.dependentsOf q) ∧
    ((healGo env fuel db stack visited).2.1).nodesOf = db.nodesOf := by
  induction fuel, db, stack, visited using healGo.induct env with
  | case1 t db visited => simp [healGo]
  | case2 db head tail visited => simp [healGo]
  | case3 fuel db d dep rest visited hmem ih =>
    rw [healGo.eq_def]
    simpa [hmem] using ih
  | case4 fuel db d dep rest visited hmem hnone ih =>
    rw [healGo.eq_def]
    simpa [if_neg hmem, hnone] using ih
  | case5 fuel db d dep rest visited hmem val hsome hfail =>
    rw [healGo.eq_def]
    simp [if_neg hmem, hsome, hfail]
  | case6 fuel db d dep rest visited hmem val hsome hfail dbl hempty pushl ih =>
    rw [healGo.eq_def]
    simp only [if_neg hmem, hsome, if_neg hfail, if_pos hempty]
    refine ⟨fun q => ?_, fun q => ?_, fun q => ?_, ?_⟩
    · rw [ih.1 q, DB.statusOf_clearEdge]
    · rw [ih.2.1 q, DB.manifestOf_clearEdge]
    · rw [ih.2.2.1 q, DB.dependentsOf_clearEdge]
    · rw [ih.2.2.2, DB.nodesOf_clearEdge]
  | case7 fuel db d dep rest visited hmem val hsome hfail dbl hne ih =>
    rw [healGo.eq_def]
    simp only [if_neg hmem, hsome, if_neg hfail, if_neg hne]
    refine ⟨fun q => ?_, fun q => ?_, fun q => ?_, ?_⟩
    · rw [ih.1 q, DB.statusOf_clearEdge]
    · rw [ih.2.1 q, DB.manifestOf_clearEdge]
    · rw [ih.2.2.1 q, DB.dependentsOf_clearEdge]
    · rw [ih.2.2.2, DB.nodesOf_clearEdge]

/-- Every event emitted by the heal walk is a heal-enter or an edge
clear. -/
theorem healGo_events (env : Env) (fuel : Nat) (db : DB)
    (stack : List (PackageId × PackageId)) (visited : List PackageId) :
    ∀ e ∈ (healGo env fuel db stack visited).2.2.2,
      (∃ d, e = .healEnter d) ∨ ∃ d dep, e = .clearEdgeEv d dep := by
  induction fuel, db, stack, visited using healGo.induct env with
  | case1 t db visited => simp [healGo]
  | case2 db head tail visited => simp [healGo]
  | case3 fuel db d dep rest visited hmem ih =>
    rw [healGo.eq_def]
    simpa [hmem] using ih
  | case4 fuel db d dep rest visited hmem hnone ih =>
    rw [healGo.eq_def]
    simp only [if_neg hmem, hnone]
    intro e he
    simp only [List.mem_cons] at he
    rcases he with he | he
    · exact Or.inl ⟨d, he⟩
    · exact ih e he
  | case5 fuel db d dep rest visited hmem val hsome hfail =>
    rw [healGo.eq_def]
    simp [if_neg hmem, hsome, hfail]
  | case6 fuel db d dep rest visited hmem val hsome hfail dbl hempty pushl ih =>
    rw [healGo.eq_def]
    simp only [if_neg hmem, hsome, if_neg hfail, if_pos hempty]
    intro e he
    simp only [List.mem_cons] at he
    rcases he with he | he | he
    · exact Or.inl ⟨d, he⟩
    · exact Or.inr ⟨d, dep, he⟩
    · exact ih e he
  | case7 fuel db d dep rest visited hmem val hsome hfail dbl hne ih =>
    rw [healGo.eq_def]
    simp only [if_neg hmem, hsome, if_neg hfail, if_neg hne]
    intro e he
    simp only [List.mem_cons] at he
    rcases he with he | he | he
    · exact Or.inl ⟨d, he⟩
    · exact Or.inr ⟨d, dep, he⟩
    · exact ih e he

/-- Fuel-sufficiency and single-visit discipline of the heal walk,
mirroring `breakGo_ok`. -/
theorem healGo_ok (env : Env) (hf : ∀ a b, env.edgeFail a b = false) :
    ∀ (fuel : Nat) (db : DB) (stack : List (PackageId × PackageId))
      (visited : List PackageId),
      (∀ p ∈ stack, p.1 ∈ db.nodesOf) →
      stack.length +
        (∑ n ∈ db.nodesOf.toFinset \ visited.toFinset, (1 + (db.depsOf n).length)) < fuel →
      visited.Nodup →
      (healGo env fuel db stack visited).1 = none ∧
      ∃ new, (healGo env fuel db stack visited).2.2.1 = new ++ visited ∧
        (new ++ visited).Nodup ∧
        enterNodes (healGo env fuel db stack visited).2.2.2 = new.reverse := by
  intro fuel db stack visited
  induction fuel, db, stack, visited using healGo.induct env with
  | case1 t db visited =>
    intro _ _ hnd
    refine ⟨by simp [healGo], [], by simp [healGo], by simpa using hnd,
      by simp [healGo, enterNodes]⟩
  | case2 db head tail visited =>
    intro _ hcount _
    omega
  | case3 fuel db d dep rest visited hmem ih =>
    intro hstack hcount hnd
    have := ih (fun p hp => hstack p (List.mem_cons_of_mem _ hp))
      (by simp only [List.length_cons] at hcount; omega) hnd
    rw [healGo.eq_def]
    simpa [hmem] using this
  | case4 fuel db d dep rest visited hmem hnone ih =>
    intro hstack hcount hnd
    have hdmem : d ∈ db.nodesOf := hstack (d, dep) (List.mem_cons_self _ _)
    have hdvis : d ∈ db.nodesOf.toFinset \ visited.toFinset := by
      simp [hmem, hdmem]
    have herase :
        (∑ n ∈ (db.nodesOf.toFinset \ visited.toFinset).erase d,
            (1 + (db.depsOf n).length)) + (1 + (db.depsOf d).length) =
          ∑ n ∈ db.nodesOf.toFinset \ visited.toFinset, (1 + (db.depsOf n).length) :=
      Finset.sum_erase_add _ _ hdvis
    have hsdiff : db.nodesOf.toFinset \ (d :: visited).toFinset =
        (db.nodesOf.toFinset \ visited.toFinset).erase d := by
      rw [List.toFinset_cons, Finset.sdiff_insert]
    have hcount' : rest.length +
        (∑ n ∈ db.nodesOf.toFinset \ (d :: visited).toFinset,
          (1 + (db.depsOf n).length)) < fuel := by
      rw [hsdiff]
      simp only [List.length_cons] at hcount
      omega
    have hnd' : (d :: visited).Nodup := List.nodup_cons.mpr ⟨hmem, hnd⟩
    obtain ⟨hok, new, hv, hndv, hent⟩ :=
      ih (fun p hp => hstack p (List.mem_cons_of_mem _ hp)) hcount' hnd'
    rw [healGo.eq_def]
    simp only [if_neg hmem, hnone]
    refine ⟨hok, new ++ [d], ?_, ?_, ?_⟩
    · rw [hv]; simp
    · have hperm : (new ++ [d] ++ visited).Perm (new ++ d :: visited) := by simp
      exact hperm.nodup_iff.mpr hndv
    · simp only [enterNodes, List.filterMap_cons] at hent ⊢
      rw [hent]
      simp
  | case5 fuel db d dep rest visited hmem val hsome hfail =>
    intro _ _ _
    rw [hf] at hfail
    exact absurd hfail (by simp)
  | case6 fuel db d dep rest visited hmem val hsome hfail dbl hempty pushl ih =>
    intro hstack hcount hnd
    have hdmem : d ∈ db.nodesOf := hstack (d, dep) (List.mem_cons_self _ _)
    have hdvis : d ∈ db.nodesOf.toFinset \ visited.toFinset := by
      simp [hmem, hdmem]
    have herase :
        (∑ n ∈ (db.nodesOf.toFinset \ visited.toFinset).erase d,
            (1 + (db.depsOf n).length)) + (1 + (db.depsOf d).length) =
          ∑ n ∈ db.nodesOf.toFinset \ visited.toFinset, (1 + (db.depsOf n).length) :=
      Finset.sum_erase_add _ _ hdvis
    have hsdiff : db.nodesOf.toFinset \ (d :: visited).toFinset =
        (db.nodesOf.toFinset \ visited.toFinset).erase d := by
      rw [List.toFinset_cons, Finset.sdiff_insert]
    have hsum_eq : ∀ (t : Finset PackageId),
        (∑ n ∈ t, (1 + ((db.clearEdge d dep).depsOf n).length)) =
          ∑ n ∈ t, (1 + (db.depsOf n).length) := by
      intro t
      exact Finset.sum_congr rfl fun n _ => by rw [DB.depsOf_clearEdge]
    have hcount' :
        (((db.clearEdge d dep).depsOf d).map (fun x => (x, d)) ++ rest).length +
          (∑ n ∈ (db.clearEdge d dep).nodesOf.toFinset \ (d :: visited).toFinset,
            (1 + ((db.clearEdge d dep).depsOf n).length)) < fuel := by
      rw [DB.nodesOf_clearEdge, hsum_eq, hsdiff]
      simp only [List.length_append, List.length_map, DB.depsOf_clearEdge]
      simp only [List.length_cons] at hcount
      omega
    have hstack' : ∀ p ∈ ((db.clearEdge d dep).depsOf d).map (fun x => (x, d)) ++ rest,
        p.1 ∈ (db.clearEdge d dep).nodesOf := by
      intro p hp
      rcases List.mem_append.mp hp with hp | hp
      · obtain ⟨x, hx, rfl⟩ := List.mem_map.mp hp
        exact DB.depsOf_subset_nodesOf _ d x hx
      · rw [DB.nodesOf_clearEdge]
        exact hstack p (List.mem_cons_of_mem _ hp)
    have hnd' : (d :: visited).Nodup := List.nodup_cons.mpr ⟨hmem, hnd⟩
    obtain ⟨hok, new, hv, hndv, hent⟩ := ih hstack' hcount' hnd'
    rw [healGo.eq_def]
    simp only [if_neg hmem, hsome, if_neg hfail, if_pos hempty]
    refine ⟨hok, new ++ [d], ?_, ?_, ?_⟩
    · rw [hv]; simp
    · have hperm : (new ++ [d] ++ visited).Perm (new ++ d :: visited) := by simp
      exact hperm.nodup_iff.mpr hndv
    · simp only [enterNodes, List.filterMap_cons] at hent ⊢
      rw [hent]
      simp
  | case7 fuel db d dep rest visited hmem val hsome hfail dbl hne ih =>
    intro hstack hcount hnd
    have hdmem : d ∈ db.nodesOf := hstack (d, dep) (List.mem_cons_self _ _)
    have hdvis : d ∈ db.nodesOf.toFinset \ visited.toFinset := by
      simp [hmem, hdmem]
    have herase :
        (∑ n ∈ (db.nodesOf.toFinset \ visited.toFinset).erase d,
            (1 + (db.depsOf n).length)) + (1 + (db.depsOf d).length) =
          ∑ n ∈ db.nodesOf.toFinset \ visited.toFinset, (1 + (db.depsOf n).length) :=
      Finset.sum_erase_add _ _ hdvis
    have hsdiff : db.nodesOf.toFinset \ (d :: visited).toFinset =
        (db.nodesOf.toFinset \ visited.toFinset).erase d := by
      rw [List.toFinset_cons, Finset.sdiff_insert]
    have hsum_eq : ∀ (t : Finset PackageId),
        (∑ n ∈ t, (1 + ((db.clearEdge d dep).depsOf n).length)) =
          ∑ n ∈ t, (1 + (db.depsOf n).length) := by
      intro t
      exact Finset.sum_congr rfl fun n _ => by rw [DB.depsOf_clearEdge]
    have hcount' : rest.length +
          (∑ n ∈ (db.clearEdge d dep).nodesOf.toFinset \ (d :: visited).toFinset,
            (1 + ((db.clearEdge d dep).depsOf n).length)) < fuel := by
      rw [DB.nodesOf_clearEdge, hsum_eq, hsdiff]
      simp only [List.length_cons] at hcount
      omega
    have hstack' : ∀ p ∈ rest, p.1 ∈ (db.clearEdge d dep).nodesOf := by
      intro p hp
      rw [DB.nodesOf_clearEdge]
      exact hstack p (List.mem_cons_of_mem _ hp)
    have hnd' : (d :: visited).Nodup := List.nodup_cons.mpr ⟨hmem, hnd⟩
    obtain ⟨hok, new, hv, hndv, hent⟩ := ih hstack' hcount' hnd'
    rw [healGo.eq_def]
    simp only [if_neg hmem, hsome, if_neg hfail, if_neg hne]
    refine ⟨hok, new ++ [d], ?_, ?_, ?_⟩
    · rw [hv]; simp
    · have hperm : (new ++ [d] ++ visited).Perm (new ++ d :: visited) := by simp
      exact hperm.nodup_iff.mpr hndv
    · simp only [enterNodes, List.filterMap_cons] at hent ⊢
      rw [hent]
      simp

/-- The per-pass fuel always dominates the number of unvisited nodes. -/
theorem passFuel_sufficient (db : DB) (v : List PackageId) :
    1 + (∑ n ∈ db.nodesOf.toFinset \ v.toFinset, (1 + (db.depsOf n).length)) <
      passFuel db := by
  unfold passFuel
  have hle : (∑ n ∈ db.nodesOf.toFinset \ v.toFinset, (1 + (db.depsOf n).length)) ≤
      ∑ n ∈ db.nodesOf.toFinset, (1 + (db.depsOf n).length) :=
    Finset.sum_le_sum_of_subset (Finset.sdiff_subset)
  omega

/-- One step of the propagation loop, run: the dispatch decision, the
corresponding walk, and either an abort or the rest of the loop. -/
theorem run_propagateList_cons (id : PackageId) (results : HealthMap)
    (dependent : PackageId) (info : DependencyInfo)
    (rest : List (PackageId × DependencyInfo)) (env : Env) (s : TxState) :
    propagateList id results ((dependent, info) :: rest) env s =
      if (computeFailures results info).isEmpty then
        match healGo env (passFuel s.db) s.db [(dependent, id)] [] with
        | (some e, db1, _, ev1) =>
            (.error e, ⟨db1, s.trace ++ .dispatchHeal dependent :: ev1⟩)
        | (none, db1, _, ev1) =>
            propagateList id results rest env
              ⟨db1, s.trace ++ .dispatchHeal dependent :: ev1⟩
      else
        match breakGo env (.healthChecksFailed (computeFailures results info))
            (passFuel s.db) s.db [(dependent, id)] [] with
        | (some e, db1, _, ev1) =>
            (.error e,
             ⟨db1, s.trace ++ .dispatchBreak dependent (computeFailures results info) :: ev1⟩)
        | (none, db1, _, ev1) =>
            propagateList id results rest env
              ⟨db1, s.trace ++ .dispatchBreak dependent (computeFailures results info) :: ev1⟩ := by
  by_cases hemp : (computeFailures results info).isEmpty
  · rw [if_pos hemp]
    rcases hgo : healGo env (passFuel s.db) s.db [(dependent, id)] [] with ⟨r1, db1, v1, ev1⟩
    cases r1 with
    | some e =>
      simp only [propagateList, hemp, if_pos, HM.run_bind, HM.run_emit, healTransitiveE, hgo]
      simp
    | none =>
      simp only [propagateList, hemp, if_pos, HM.run_bind, HM.run_emit, healTransitiveE, hgo]
      simp
  · rw [if_neg hemp]
    have hemp' : (computeFailures results info).isEmpty = false := by
      simpa using hemp
    rcases hgo : breakGo env (.healthChecksFailed (computeFailures results info))
        (passFuel s.db) s.db [(dependent, id)] [] with ⟨r1, db1, v1, ev1⟩
    cases r1 with
    | some e =>
      simp only [propagateList, hemp', Bool.false_eq_true, if_false, HM.run_bind,
        HM.run_emit, breakTransitiveE, hgo]
      simp
    | none =>
      simp only [propagateList, hemp', Bool.false_eq_true, if_false, HM.run_bind,
        HM.run_emit, breakTransitiveE, hgo]
      simp

/-- Frame of the propagation loop, for any environment and any outcome: the
loop only appends events — none of them a probe, a cancellation sample, a
lock acquisition, a status write or the outer commit — and only mutates
dependency edges. -/
theorem propagateList_frame (id : PackageId) (results : HealthMap) :
    ∀ (deps : List (PackageId × DependencyInfo)) (env : Env) (s : TxState),
      ∃ r db' ext, propagateList id results deps env s = (r, ⟨db', s.trace ++ ext⟩) ∧
        (∀ q, db'.statusOf q = s.db.statusOf q) ∧
        (∀ q, db'.manifestOf q = s.db.manifestOf q) ∧
        (∀ q, db'.dependentsOf q = s.db.dependentsOf q) ∧
        db'.nodesOf = s.db.nodesOf ∧
        ∀ e ∈ ext, e.isProbe = false ∧ e.isSample = false ∧ e.isLock = false ∧
          (∀ q, e ≠ .writeStatus q) ∧ e ≠ .txSave := by
  intro deps
  induction deps with
  | nil =>
    intro env s
    exact ⟨.ok (), s.db, [], by simp [propagateList, HM.run_pure], by simp, by simp, by simp,
      rfl, by simp⟩
  | cons hd rest ih =>
    intro env s
    obtain ⟨dependent, info⟩ := hd
    rw [run_propagateList_cons]
    by_cases hemp : (computeFailures results info).isEmpty
    · rw [if_pos hemp]
      rcases hgo : healGo env (passFuel s.db) s.db [(dependent, id)] [] with ⟨r1, db1, v1, ev1⟩
      have hpres := healGo_pres env (passFuel s.db) s.db [(dependent, id)] []
      rw [hgo] at hpres
      have hev := healGo_events env (passFuel s.db) s.db [(dependent, id)] []
      rw [hgo] at hev
      simp only at hpres hev
      have hquiet : ∀ e ∈ Event.dispatchHeal dependent :: ev1,
          e.isProbe = false ∧ e.isSample = false ∧ e.isLock = false ∧
          (∀ q, e ≠ Event.writeStatus q) ∧ e ≠ Event.txSave := by
        intro e' he'
        rcases List.mem_cons.mp he' with he' | he'
        · subst he'
          exact ⟨rfl, rfl, rfl, fun q => by simp, by simp⟩
        · rcases hev e' he' with ⟨d, rfl⟩ | ⟨d, dep, rfl⟩
          · exact ⟨rfl, rfl, rfl, fun q => by simp, by simp⟩
          · exact ⟨rfl, rfl, rfl, fun q => by simp, by simp⟩
      cases r1 with
      | some e =>
        exact ⟨.error e, db1, Event.dispatchHeal dependent :: ev1, rfl,
          hpres.1, hpres.2.1, hpres.2.2.1, hpres.2.2.2, hquiet⟩
      | none =>
        obtain ⟨r2, db2, ext2, hrun2, hs2, hm2, hd2, hn2, hq2⟩ :=
          ih env ⟨db1, s.trace ++ Event.dispatchHeal dependent :: ev1⟩
        refine ⟨r2, db2, Event.dispatchHeal dependent :: (ev1 ++ ext2), ?_, ?_, ?_, ?_, ?_, ?_⟩
        · dsimp only
          rw [hrun2]
          simp
        · intro q; rw [hs2 q]; exact hpres.1 q
        · intro q; rw [hm2 q]; exact hpres.2.1 q
        · intro q; rw [hd2 q]; exact hpres.2.2.1 q
        · rw [hn2]; exact hpres.2.2.2
        · intro e' he'
          rcases List.mem_cons.mp he' with he' | he'
          · exact hquiet e' (by simp [he'])
          · rcases List.mem_append.mp he' with he' | he'
            · exact hquiet e' (by simp [he'])
            · exact hq2 e' he'
    · rw [if_neg hemp]
      rcases hgo : breakGo env (.healthChecksFailed (computeFailures results info))
          (passFuel s.db) s.db [(dependent, id)] [] with ⟨r1, db1, v1, ev1⟩
      have hpres := breakGo_pres env (.healthChecksFailed (computeFailures results info))
        (passFuel s.db) s.db [(dependent, id)] []
      rw [hgo] at hpres
      have hev := breakGo_events env (.healthChecksFailed (computeFailures results info))
        (passFuel s.db) s.db [(dependent, id)] []
      rw [hgo] at hev
      simp only at hpres hev
      have hquiet : ∀ e ∈ Event.dispatchBreak dependent (computeFailures results info) :: ev1,
          e.isProbe = false ∧ e.isSample = false ∧ e.isLock = false ∧
          (∀ q, e ≠ Event.writeStatus q) ∧ e ≠ Event.txSave := by
        intro e' he'
        rcases List.mem_cons.mp he' with he' | he'
        · subst he'
          exact ⟨rfl, rfl, rfl, fun q => by simp, by simp⟩
        · rcases hev e' he' with ⟨d, rfl⟩ | ⟨d, dep, rfl⟩
          · exact ⟨rfl, rfl, rfl, fun q => by simp, by simp⟩
          · exact ⟨rfl, rfl, rfl, fun q => by simp, by simp⟩
      cases r1 with
      | some e =>
        exact ⟨.error e, db1,
          Event.dispatchBreak dependent (computeFailures results info) :: ev1, rfl,
          hpres.1, hpres.2.1, hpres.2.2.1, hpres.2.2.2, hquiet⟩
      | none =>
        obtain ⟨r2, db2, ext2, hrun2, hs2, hm2, hd2, hn2, hq2⟩ :=
          ih env ⟨db1,
            s.trace ++ Event.dispatchBreak dependent (computeFailures results info) :: ev1⟩
        refine ⟨r2, db2,
          Event.dispatchBreak dependent (computeFailures results info) :: (ev1 ++ ext2),
          ?_, ?_, ?_, ?_, ?_, ?_⟩
        · dsimp only
          rw [hrun2]
          simp
        · intro q; rw [hs2 q]; exact hpres.1 q
        · intro q; rw [hm2 q]; exact hpres.2.1 q
        · intro q; rw [hd2 q]; exact hpres.2.2.1 q
        · rw [hn2]; exact hpres.2.2.2
        · intro e' he'
          rcases List.mem_cons.mp he' with he' | he'
          · exact hquiet e' (by simp [he'])
          · rcases List.mem_append.mp he' with he' | he'
            · exact hquiet e' (by simp [he'])
            · exact hq2 e' he'

/-- With no injected propagation fault the loop succeeds, and its dispatch
events are exactly one break/heal decision per listed dependent, in order:
break with `HealthChecksFailed` of the computed failing subset exactly when
that subset is non-empty, heal exactly when it is empty — never both. -/
theorem propagateList_ok (id : PackageId) (results : HealthMap) (env : Env)
    (hf : ∀ a b, env.edgeFail a b = false) :
    ∀ (deps : List (PackageId × DependencyInfo)) (s : TxState),
      (∀ p ∈ deps, p.1 ∈ s.db.nodesOf) →
      ∃ db' ext, propagateList id results deps env s = (.ok (), ⟨db', s.trace ++ ext⟩) ∧
        ext.filter Event.isDispatch = deps.map (dispatchEv results) := by
  intro deps
  induction deps with
  | nil =>
    intro s _
    exact ⟨s.db, [], by simp [propagateList, HM.run_pure], by simp⟩
  | cons hd rest ih =>
    intro s hmem
    obtain ⟨dependent, info⟩ := hd
    have hdep : dependent ∈ s.db.nodesOf := hmem (dependent, info) (List.mem_cons_self _ _)
    rw [run_propagateList_cons]
    by_cases hemp : (computeFailures results info).isEmpty
    · rw [if_pos hemp]
      rcases hgo : healGo env (passFuel s.db) s.db [(dependent, id)] [] with ⟨r1, db1, v1, ev1⟩
      have hok := healGo_ok env hf (passFuel s.db) s.db [(dependent, id)] []
        (by intro p hp; simp at hp; simp [hp, hdep]) (passFuel_sufficient s.db [])
        List.nodup_nil
      rw [hgo] at hok
      obtain ⟨h1, -⟩ := hok
      simp only at h1
      subst h1
      have hpres := healGo_pres env (passFuel s.db) s.db [(dependent, id)] []
      rw [hgo] at hpres
      have hev := healGo_events env (passFuel s.db) s.db [(dependent, id)] []
      rw [hgo] at hev
      simp only at hpres hev
      obtain ⟨db2, ext2, hrun2, hfil2⟩ :=
        ih ⟨db1, s.trace ++ Event.dispatchHeal dependent :: ev1⟩
          (by
            intro p hp
            simp only
            rw [hpres.2.2.2]
            exact hmem p (List.mem_cons_of_mem _ hp))
      refine ⟨db2, Event.dispatchHeal dependent :: (ev1 ++ ext2), ?_, ?_⟩
      · dsimp only
        rw [hrun2]
        simp
      · have hnodisp : ev1.filter Event.isDispatch = [] := by
          rw [List.filter_eq_nil_iff]
          intro e he
          rcases hev e he with ⟨d, rfl⟩ | ⟨d, dep, rfl⟩ <;> simp [Event.isDispatch]
        simp only [List.filter_cons, List.filter_append, hnodisp, hfil2]
        simp [Event.isDispatch, dispatchEv, hemp]
    · rw [if_neg hemp]
      rcases hgo : breakGo env (.healthChecksFailed (computeFailures results info))
          (passFuel s.db) s.db [(dependent, id)] [] with ⟨r1, db1, v1, ev1⟩
      have hok := breakGo_ok env (.healthChecksFailed (computeFailures results info)) hf
        (passFuel s.db) s.db [(dependent, id)] []
        (by intro p hp; simp at hp; simp [hp, hdep]) (passFuel_sufficient s.db [])
        List.nodup_nil
      rw [hgo] at hok
      obtain ⟨h1, -⟩ := hok
      simp only at h1
      subst h1
      have hpres := breakGo_pres env (.healthChecksFailed (computeFailures results info))
        (passFuel s.db) s.db [(dependent, id)] []
      rw [hgo] at hpres
      have hev := breakGo_events env (.healthChecksFailed (computeFailures results info))
        (passFuel s.db) s.db [(dependent, id)] []
      rw [hgo] at hev
      simp only at hpres hev
      obtain ⟨db2, ext2, hrun2, hfil2⟩ :=
        ih ⟨db1, s.trace ++ Event.dispatchBreak dependent (computeFailures results info) :: ev1⟩
          (by
            intro p hp
            simp only
            rw [hpres.2.2.2]
            exact hmem p (List.mem_cons_of_mem _ hp))
      refine ⟨db2,
        Event.dispatchBreak dependent (computeFailures results info) :: (ev1 ++ ext2), ?_, ?_⟩
      · dsimp only
        rw [hrun2]
        simp
      · have hnodisp : ev1.filter Event.isDispatch = [] := by
          rw [List.filter_eq_nil_iff]
          intro e he
          rcases hev e he with ⟨d, rfl⟩ | ⟨d, dep, rfl⟩ <;> simp [Event.isDispatch]
        simp only [List.filter_cons, List.filter_append, hnodisp, hfil2]
        simp [Event.isDispatch, dispatchEv, hemp]

/-- Looking up the package whose status was replaced. -/
theorem DB.lookupAL_setStatus_self (db : DB) (id : PackageId) (st : MainStatus) {pd : PkgData}
    (hpd : lookupAL db.pkgs id = some pd) :
    lookupAL (db.setStatus id st).pkgs id = some { pd with status := st } := by
  unfold DB.setStatus
  rw [DB.lookupAL_modifyPkg, hpd]
  simp

/-- Checkpoint B, run with a still-`Running` status: the health map is
replaced by the fresh results, `started` is the re-read value, and the
current dependents are returned. -/
theorem run_writeCheckpoint_running (id : PackageId) (results : HealthMap) (env : Env)
    (db : DB) (tr : List Event) {pd : PkgData} (hpd : lookupAL db.pkgs id = some pd)
    {h2 : HealthMap} {t2 : Nat} (hst : pd.status = .running h2 t2) :
    writeCheckpoint id results env ⟨db, tr⟩ =
      (.ok pd.current_dependents,
       ⟨db.setStatus id (.running results t2),
        tr ++ [.lockAll [(.statusLoc id, .write), (.dependentsLoc id, .read)],
               .readStatus id, .writeStatus id, .readDependents id, .checkpointSave]⟩) := by
  have hso : db.statusOf id = some (.running h2 t2) := by
    simp [DB.statusOf, hpd, hst]
  have hlk : lookupAL (db.setStatus id (.running results t2)).pkgs id =
      some { pd with status := .running results t2 } :=
    DB.lookupAL_setStatus_self db id _ hpd
  simp only [writeCheckpoint, HM.run_bind, run_lockAllE, getStatusE, hso]
  simp only [run_setStatusE, getDependentsE, hlk, run_checkpointSaveE, HM.run_pure]
  simp

/-- Checkpoint B, run with a status that is no longer `Running`: no status
write happens; the current dependents are still read and returned. -/
theorem run_writeCheckpoint_stopped (id : PackageId) (results : HealthMap) (env : Env)
    (db : DB) (tr : List Event) {pd : PkgData} (hpd : lookupAL db.pkgs id = some pd)
    (hst : pd.status = .stopped) :
    writeCheckpoint id results env ⟨db, tr⟩ =
      (.ok pd.current_dependents,
       ⟨db,
        tr ++ [.lockAll [(.statusLoc id, .write), (.dependentsLoc id, .read)],
               .readStatus id, .readDependents id, .checkpointSave]⟩) := by
  have hso : db.statusOf id = some .stopped := by
    simp [DB.statusOf, hpd, hst]
  simp only [writeCheckpoint, HM.run_bind, run_lockAllE, getStatusE, hso]
  simp only [getDependentsE, hpd, run_checkpointSaveE, HM.run_pure]
  simp

/-- The whole cycle for a service that is not running at entry: checkpoint
A commits and the cycle ends successfully, having touched nothing else. -/
theorem run_check_stopped (env : Env) (db : DB) (id : PackageId) {pd : PkgData}
    (hpd : lookupAL db.pkgs id = some pd) (hst : pd.status = .stopped) :
    check id env ⟨db, []⟩ = (.ok (), ⟨db, readTrace id⟩) := by
  have hmo : db.manifestOf id = some pd.manifest := by
    simp [DB.manifestOf, hpd]
  have hso : db.statusOf id = some .stopped := by
    simp [DB.statusOf, hpd, hst]
  simp only [check, HM.run_bind, run_lockAllE, getManifestE, hmo, getStatusE, hso,
    run_checkpointSaveE, MainStatus.started, HM.run_pure]
  simp [readTrace]

/-- The whole cycle for a running service, up to the cancellation gate: the
read checkpoint, the probes and the single sample happen in that order, and
the commit phase runs exactly when the sampled signal says to commit. -/
theorem run_check_running (env : Env) (db : DB) (id : PackageId) {pd : PkgData}
    (hpd : lookupAL db.pkgs id = some pd) {h0 : HealthMap} {t0 : Nat}
    (hst : pd.status = .running h0 t0) :
    check id env ⟨db, []⟩ =
      if env.shouldCommit then
        commitPhase id (probeResults env pd.manifest.health_checks) env
          ⟨db, readTrace id ++ probeTrace pd.manifest ++ [.sample env.shouldCommit]⟩
      else
        (.ok (), ⟨db, readTrace id ++ probeTrace pd.manifest ++ [.sample env.shouldCommit]⟩) := by
  have hmo : db.manifestOf id = some pd.manifest := by
    simp [DB.manifestOf, hpd]
  have hso : db.statusOf id = some (.running h0 t0) := by
    simp [DB.statusOf, hpd, hst]
  simp only [check, HM.run_bind, run_lockAllE, getManifestE, hmo, getStatusE, hso,
    run_checkpointSaveE, MainStatus.started, run_runProbes, run_sampleCancelE, HM.run_pure]
  cases hsc : env.shouldCommit with
  | true =>
    simp [readTrace, probeTrace, hsc]
  | false =>
    simp [readTrace, probeTrace, hsc]

/-- Frame of the commit phase, for any environment and any outcome: its
first event opens the write checkpoint (the write-lock batch), and nothing
it emits is a probe or a cancellation sample. -/
theorem commitPhase_frame (id : PackageId) (results : HealthMap) (env : Env) (s : TxState) :
    ∃ r db' ext,
      commitPhase id results env s =
        (r, ⟨db', s.trace ++
          .lockAll [(.statusLoc id, .write), (.dependentsLoc id, .read)] :: ext⟩) ∧
      ∀ e ∈ ext, e.isProbe = false ∧ e.isSample = false := by
  cases hlk : lookupAL s.db.pkgs id with
  | none =>
    have hso : s.db.statusOf id = none := by simp [DB.statusOf, hlk]
    refine ⟨.error .store, s.db, [], ?_, by simp⟩
    rcases s with ⟨db, tr⟩
    simp only [commitPhase, writeCheckpoint, HM.run_bind, run_lockAllE, getStatusE, hso]
  | some pd =>
    cases hst : pd.status with
    | running h2 t2 =>
      rcases s with ⟨db, tr⟩
      rw [commitPhase]
      have hwc := run_writeCheckpoint_running id results env db tr hlk hst
      obtain ⟨r2, db2, ext2, hrun2, hs2, hm2, hd2, hn2, hq2⟩ := propagateList_frame id results
        pd.current_dependents env
        ⟨db.setStatus id (.running results t2),
         tr ++ [.lockAll [(.statusLoc id, .write), (.dependentsLoc id, .read)],
                .readStatus id, .writeStatus id, .readDependents id, .checkpointSave]⟩
      cases r2 with
      | error e =>
        refine ⟨.error e, db2,
          [.readStatus id, .writeStatus id, .readDependents id, .checkpointSave] ++ ext2,
          ?_, ?_⟩
        · simp only [HM.run_bind, hwc]
          rw [hrun2]
          simp
        · intro e' he'
          simp only [List.mem_append, List.mem_cons] at he'
          rcases he' with (h | h | h | h | h) | h
          · subst h; exact ⟨rfl, rfl⟩
          · subst h; exact ⟨rfl, rfl⟩
          · subst h; exact ⟨rfl, rfl⟩
          · subst h; exact ⟨rfl, rfl⟩
          · exact absurd h (by simp)
          · exact ⟨(hq2 e' h).1, (hq2 e' h).2.1⟩
      | ok u =>
        cases u
        by_cases hsf : env.saveFail
        · refine ⟨.error .store, db2,
            [.readStatus id, .writeStatus id, .readDependents id, .checkpointSave] ++ ext2,
            ?_, ?_⟩
          · simp only [HM.run_bind, hwc]
            rw [hrun2]
            simp [txSaveE, hsf]
          · intro e' he'
            simp only [List.mem_append, List.mem_cons] at he'
            rcases he' with (h | h | h | h | h) | h
            · subst h; exact ⟨rfl, rfl⟩
            · subst h; exact ⟨rfl, rfl⟩
            · subst h; exact ⟨rfl, rfl⟩
            · subst h; exact ⟨rfl, rfl⟩
            · exact absurd h (by simp)
            · exact ⟨(hq2 e' h).1, (hq2 e' h).2.1⟩
        · refine ⟨.ok (), db2,
            [.readStatus id, .writeStatus id, .readDependents id, .checkpointSave] ++ ext2
              ++ [.txSave], ?_, ?_⟩
          · simp only [HM.run_bind, hwc]
            rw [hrun2]
            simp only [txSaveE, hsf, if_false, Bool.false_eq_true]
            simp
          · intro e' he'
            simp only [List.mem_append, List.mem_cons] at he'
            rcases he' with ((h | h | h | h | h) | h) | h
            · subst h; exact ⟨rfl, rfl⟩
            · subst h; exact ⟨rfl, rfl⟩
            · subst h; exact ⟨rfl, rfl⟩
            · subst h; exact ⟨rfl, rfl⟩
            · exact absurd h (by simp)
            · exact ⟨(hq2 e' h).1, (hq2 e' h).2.1⟩
            · rcases h with h | h
              · subst h; exact ⟨rfl, rfl⟩
              · simp at h
    | stopped =>
      rcases s with ⟨db, tr⟩
      rw [commitPhase]
      have hwc := run_writeCheckpoint_stopped id results env db tr hlk hst
      obtain ⟨r2, db2, ext2, hrun2, hs2, hm2, hd2, hn2, hq2⟩ := propagateList_frame id results
        pd.current_dependents env
        ⟨db, tr ++ [.lockAll [(.statusLoc id, .write), (.dependentsLoc id, .read)],
                .readStatus id, .readDependents id, .checkpointSave]⟩
      cases r2 with
      | error e =>
        refine ⟨.error e, db2,
          [.readStatus id, .readDependents id, .checkpointSave] ++ ext2, ?_, ?_⟩
        · simp only [HM.run_bind, hwc]
          rw [hrun2]
          simp
        · intro e' he'
          simp only [List.mem_append, List.mem_cons] at he'
          rcases he' with (h | h | h | h) | h
          · subst h; exact ⟨rfl, rfl⟩
          · subst h; exact ⟨rfl, rfl⟩
          · subst h; exact ⟨rfl, rfl⟩
          · exact absurd h (by simp)
          · exact ⟨(hq2 e' h).1, (hq2 e' h).2.1⟩
      | ok u =>
        cases u
        by_cases hsf : env.saveFail
        · refine ⟨.error .store, db2,
            [.readStatus id, .readDependents id, .checkpointSave] ++ ext2, ?_, ?_⟩
          · simp only [HM.run_bind, hwc]
            rw [hrun2]
            simp [txSaveE, hsf]
          · intro e' he'
            simp only [List.mem_append, List.mem_cons] at he'
            rcases he' with (h | h | h | h) | h
            · subst h; exact ⟨rfl, rfl⟩
            · subst h; exact ⟨rfl, rfl⟩
            · subst h; exact ⟨rfl, rfl⟩
            · exact absurd h (by simp)
            · exact ⟨(hq2 e' h).1, (hq2 e' h).2.1⟩
        · refine ⟨.ok (), db2,
            [.readStatus id, .readDependents id, .checkpointSave] ++ ext2 ++ [.txSave],
            ?_, ?_⟩
          · simp only [HM.run_bind, hwc]
            rw [hrun2]
            simp only [txSaveE, hsf, if_false, Bool.false_eq_true]
            simp
          · intro e' he'
            simp only [List.mem_append, List.mem_cons] at he'
            rcases he' with ((h | h | h | h) | h) | h
            · subst h; exact ⟨rfl, rfl⟩
            · subst h; exact ⟨rfl, rfl⟩
            · subst h; exact ⟨rfl, rfl⟩
            · exact absurd h (by simp)
            · exact ⟨(hq2 e' h).1, (hq2 e' h).2.1⟩
            · rcases h with h | h
              · subst h; exact ⟨rfl, rfl⟩
              · simp at h

/-- Looking up a mapped-pair list at a member key yields its image. -/
theorem lookupAL_map_self {α β : Type} [DecidableEq α] (f : α → β) (c : α) :
    ∀ l : List α, c ∈ l → lookupAL (l.map fun x => (x, f x)) c = some (f c) := by
  intro l
  induction l with
  | nil => simp
  | cons hd rest ih =>
    intro hc
    by_cases hh : hd = c
    · subst hh
      simp [lookupAL]
    · rcases List.mem_cons.mp hc with hc | hc
      · exact absurd hc.symm hh
      · simp [lookupAL, hh, ih hc]

/-! ## The claims -/

/-- C9.  The probe runner's output mapping contains exactly one
`HealthCheckResult` entry for every health-check id defined in the
manifest — the key list of the output is exactly the manifest's check-id
list; the runner itself never fails as a whole; and a check that could not
be executed surfaces as a `Failure` result under its own id rather than
being omitted or escalated to a hard error. -/
theorem C9_probe_output_complete (env : Env) (checks : List HealthCheckId)
    (t : Nat) (s : TxState) (c : HealthCheckId) (info : String)
    (hc : c ∈ checks) (hfail : env.probe c = .execFail info) :
    (probeResults env checks).map Prod.fst = checks ∧
    (runProbes checks t env s).1 = .ok (probeResults env checks) ∧
    lookupAL (probeResults env checks) c = some (.failure info) := by
  refine ⟨?_, rfl, ?_⟩
  · unfold probeResults
    rw [List.map_map]
    show checks.map (fun c => c) = checks
    simp
  · have hself := lookupAL_map_self
      (fun c => match env.probe c with
                | .result r => r
                | .execFail info => HealthCheckResult.failure info) c checks hc
    unfold probeResults
    rw [hself]
    simp [hfail]

/-- Witness for C9 at a concrete manifest and probe engine. -/
theorem C9_probe_output_complete_witness :
    "c2" ∈ ["c1", "c2"] ∧
    (⟨fun c => if c = "c2" then .execFail "boom" else .result (.success "ok"),
        true, fun _ _ => false, false⟩ : Env).probe "c2" = .execFail "boom" ∧
    (probeResults ⟨fun c => if c = "c2" then .execFail "boom" else .result (.success "ok"),
        true, fun _ _ => false, false⟩ ["c1", "c2"]).map Prod.fst = ["c1", "c2"] ∧
    lookupAL (probeResults ⟨fun c => if c = "c2" then .execFail "boom" else .result (.success "ok"),
        true, fun _ _ => false, false⟩ ["c1", "c2"]) "c2" = some (.failure "boom") := by
  refine ⟨by decide, rfl, ?_, ?_⟩
  · exact (C9_probe_output_complete _ ["c1", "c2"] 0 ⟨⟨[]⟩, []⟩ "c2" "boom"
      (by decide) rfl).1
  · exact (C9_probe_output_complete _ ["c1", "c2"] 0 ⟨⟨[]⟩, []⟩ "c2" "boom"
      (by decide) rfl).2.2

/-- C3.  A cycle entered with a status that is not `Running` (`started`
absent) returns success; the only lock batch ever acquired is the
status/manifest read pair, no write lock is ever requested, no probe runs,
and the persisted database is unchanged. -/
theorem C3_not_running_noop (env : Env) (db : DB) (id : PackageId) (pd : PkgData)
    (hpd : lookupAL db.pkgs id = some pd) (hst : pd.status = .stopped) :
    runCheck env db id = ⟨db, readTrace id, true⟩ ∧
    (runCheck env db id).trace.filter Event.isLock =
      [.lockAll [(.statusLoc id, .read), (.manifestLoc id, .read)]] ∧
    (∀ e ∈ (runCheck env db id).trace, e.requestsWrite = false) ∧
    (runCheck env db id).trace.filter Event.isProbe = [] ∧
    (runCheck env db id).db = db ∧
    (runCheck env db id).committed = true := by
  have hrun : runCheck env db id = ⟨db, readTrace id, true⟩ := by
    unfold runCheck
    rw [run_check_stopped env db id hpd hst]
  refine ⟨hrun, ?_, ?_, ?_, ?_, ?_⟩
  · rw [hrun]; simp [readTrace, Event.isLock]
  · rw [hrun]
    intro e he
    simp only [readTrace, List.mem_cons] at he
    rcases he with rfl | rfl | rfl | rfl | he
    · simp [Event.requestsWrite, LockKind.read]
    · rfl
    · rfl
    · rfl
    · simp at he
  · rw [hrun]; simp [readTrace, Event.isProbe]
  · rw [hrun]
  · rw [hrun]

/-- No event of checkpoint A or of the probe phase is a sample, a mutation
or a lock-write request; none of the probe-phase events is a lock at all. -/
theorem readProbe_events_quiet (id : PackageId) (m : Manifest) :
    ∀ e ∈ readTrace id ++ probeTrace m,
      e.isSample = false ∧ e.isMutation = false := by
  intro e he
  rcases List.mem_append.mp he with he | he
  · simp only [readTrace, List.mem_cons] at he
    rcases he with rfl | rfl | rfl | rfl | he
    · exact ⟨rfl, rfl⟩
    · exact ⟨rfl, rfl⟩
    · exact ⟨rfl, rfl⟩
    · exact ⟨rfl, rfl⟩
    · simp at he
  · obtain ⟨c, -, rfl⟩ := List.mem_map.mp he
    exact ⟨rfl, rfl⟩

/-- C2.  In every cycle that reaches the probe phase, the cancellation
signal is sampled exactly once — after all probing and before any persisted
mutation — and a cleared signal makes the cycle return success with the
persisted database unchanged. -/
theorem C2_cancellation_gate (env : Env) (db : DB) (id : PackageId) (pd : PkgData)
    (h0 : HealthMap) (t0 : Nat)
    (hpd : lookupAL db.pkgs id = some pd) (hst : pd.status = .running h0 t0) :
    ∃ post,
      (runCheck env db id).trace =
        readTrace id ++ probeTrace pd.manifest ++ .sample env.shouldCommit :: post ∧
      (∀ e ∈ readTrace id ++ probeTrace pd.manifest,
        e.isSample = false ∧ e.isMutation = false) ∧
      (∀ e ∈ post, e.isSample = false ∧ e.isProbe = false) ∧
      (env.shouldCommit = false →
        runCheck env db id =
          ⟨db, readTrace id ++ probeTrace pd.manifest ++ [.sample false], true⟩) := by
  have hrc := run_check_running env db id hpd hst
  cases hsc : env.shouldCommit with
  | false =>
    rw [hsc] at hrc
    simp only [Bool.false_eq_true, if_false] at hrc
    refine ⟨[], ?_, readProbe_events_quiet id pd.manifest, by simp, fun _ => ?_⟩
    · unfold runCheck
      rw [hrc]
    · unfold runCheck
      rw [hrc]
  | true =>
    rw [hsc] at hrc
    simp only [if_pos] at hrc
    obtain ⟨r, db', ext, hcp, hq⟩ := commitPhase_frame id
      (probeResults env pd.manifest.health_checks) env
      ⟨db, readTrace id ++ probeTrace pd.manifest ++ [.sample env.shouldCommit]⟩
    rw [hsc] at hcp
    refine ⟨.lockAll [(.statusLoc id, .write), (.dependentsLoc id, .read)] :: ext,
      ?_, readProbe_events_quiet id pd.manifest, ?_, by intro h; exact absurd h (by decide)⟩
    · unfold runCheck
      rw [hrc, hcp]
      cases r <;> simp
    · intro e he
      rcases List.mem_cons.mp he with rfl | he
      · exact ⟨rfl, rfl⟩
      · exact ⟨(hq e he).2, (hq e he).1⟩

/-- C6.  Within one cycle the read checkpoint commits — releasing its
locks — before any probe executes, and all probing completes before the
write checkpoint opens: the trace is the read-checkpoint events (ending in
its save), then exactly the probe events, then a remainder that contains no
probe and whose only lock batch, opened when the commit phase runs at all,
is the write checkpoint's and comes first. -/
theorem C6_ordering (env : Env) (db : DB) (id : PackageId) (pd : PkgData)
    (h0 : HealthMap) (t0 : Nat)
    (hpd : lookupAL db.pkgs id = some pd) (hst : pd.status = .running h0 t0) :
    ∃ post,
      (runCheck env db id).trace = readTrace id ++ probeTrace pd.manifest ++ post ∧
      readTrace id =
        [.lockAll [(.statusLoc id, .read), (.manifestLoc id, .read)],
         .readManifest id, .readStatus id, .checkpointSave] ∧
      (∀ e ∈ probeTrace pd.manifest, e.isProbe = true) ∧
      (∀ e ∈ post, e.isProbe = false) ∧
      post.head? = some (.sample env.shouldCommit) ∧
      (env.shouldCommit = true →
        post.tail.head? =
          some (.lockAll [(.statusLoc id, .write), (.dependentsLoc id, .read)])) := by
  have hrc := run_check_running env db id hpd hst
  cases hsc : env.shouldCommit with
  | false =>
    rw [hsc] at hrc
    simp only [Bool.false_eq_true, if_false] at hrc
    refine ⟨[.sample false], ?_, rfl, ?_, ?_, rfl, by intro h; exact absurd h (by decide)⟩
    · unfold runCheck
      rw [hrc]
    · intro e he
      obtain ⟨c, -, rfl⟩ := List.mem_map.mp he
      rfl
    · simp [Event.isProbe]
  | true =>
    rw [hsc] at hrc
    simp only [if_pos] at hrc
    obtain ⟨r, db', ext, hcp, hq⟩ := commitPhase_frame id
      (probeResults env pd.manifest.health_checks) env
      ⟨db, readTrace id ++ probeTrace pd.manifest ++ [.sample env.shouldCommit]⟩
    rw [hsc] at hcp
    refine ⟨.sample true ::
      .lockAll [(.statusLoc id, .write), (.dependentsLoc id, .read)] :: ext,
      ?_, rfl, ?_, ?_, rfl, fun _ => rfl⟩
    · unfold runCheck
      rw [hrc, hcp]
      cases r <;> simp
    · intro e he
      obtain ⟨c, -, rfl⟩ := List.mem_map.mp he
      rfl
    · intro e he
      rcases List.mem_cons.mp he with rfl | he
      · rfl
      · rcases List.mem_cons.mp he with rfl | he
        · rfl
        · exact (hq e he).1

/-- The status written by the write checkpoint. -/
theorem DB.statusOf_setStatus_self (db : DB) (id : PackageId) (st : MainStatus) {pd : PkgData}
    (hpd : lookupAL db.pkgs id = some pd) :
    (db.setStatus id st).statusOf id = some st := by
  unfold DB.statusOf
  rw [DB.lookupAL_setStatus_self db id st hpd]
  rfl

/-- C4.  For every dependent, the computed failures map is the restriction
of the probe-result mapping to the dependent's subscribed check ids whose
result is a `Failure`; and the propagation loop records exactly one
dispatch per listed dependent, in order: `break_transitive` with
`HealthChecksFailed { failures }` exactly when that map is non-empty,
`heal_transitive` exactly when it is empty — never both. -/
theorem C4_break_heal_dispatch (id : PackageId) (results : HealthMap) (env : Env)
    (deps : List (PackageId × DependencyInfo)) (s : TxState)
    (hf : ∀ a b, env.edgeFail a b = false)
    (hmem : ∀ p ∈ deps, p.1 ∈ s.db.nodesOf) :
    (∀ info, computeFailures results info =
      results.filter fun p => p.2.isFailure && info.health_checks.contains p.1) ∧
    (∀ d info, dispatchEv results (d, info) =
      if (computeFailures results info).isEmpty then .dispatchHeal d
      else .dispatchBreak d (computeFailures results info)) ∧
    ∃ db' ext, propagateList id results deps env s = (.ok (), ⟨db', s.trace ++ ext⟩) ∧
      ext.filter Event.isDispatch = deps.map (dispatchEv results) := by
  refine ⟨?_, fun d info => rfl, propagateList_ok id results env hf deps s hmem⟩
  intro info
  unfold computeFailures
  rw [List.filter_filter]
  refine List.filter_congr ?_
  intro a _
  obtain ⟨c, r⟩ := a
  cases r <;> simp [HealthCheckResult.isSuccess, HealthCheckResult.isFailure]

/-- Witness for C4 at a concrete state: one failing and one healthy
dependent. -/
theorem C4_break_heal_dispatch_witness :
    (∀ a b, (⟨fun _ => .result (.failure "f"), true, fun _ _ => false, false⟩ : Env).edgeFail
      a b = false) ∧
    (∀ p ∈ [("D", (⟨["c1"]⟩ : DependencyInfo)), ("E", (⟨[]⟩ : DependencyInfo))],
      p.1 ∈ (DB.mk [("P", ⟨.running [] 5, ⟨["c1"]⟩,
        [("D", ⟨["c1"]⟩), ("E", ⟨[]⟩)], []⟩), ("D", ⟨.stopped, ⟨[]⟩, [], []⟩),
        ("E", ⟨.stopped, ⟨[]⟩, [], []⟩)]).nodesOf) ∧
    (computeFailures [("c1", .failure "f")] ⟨["c1"]⟩ =
      [("c1", HealthCheckResult.failure "f")] ∧
     computeFailures [("c1", .failure "f")] ⟨[]⟩ = []) ∧
    ∃ db' ext,
      propagateList "P" [("c1", .failure "f")]
        [("D", ⟨["c1"]⟩), ("E", ⟨[]⟩)]
        ⟨fun _ => .result (.failure "f"), true, fun _ _ => false, false⟩
        ⟨DB.mk [("P", ⟨.running [] 5, ⟨["c1"]⟩, [("D", ⟨["c1"]⟩), ("E", ⟨[]⟩)], []⟩),
          ("D", ⟨.stopped, ⟨[]⟩, [], []⟩), ("E", ⟨.stopped, ⟨[]⟩, [], []⟩)], []⟩ =
        (.ok (), ⟨db', [] ++ ext⟩) ∧
      ext.filter Event.isDispatch =
        [.dispatchBreak "D" [("c1", .failure "f")], .dispatchHeal "E"] := by
  refine ⟨fun a b => rfl, by decide, by decide, ?_⟩
  have h := C4_break_heal_dispatch "P" [("c1", .failure "f")]
    ⟨fun _ => .result (.failure "f"), true, fun _ _ => false, false⟩
    [("D", ⟨["c1"]⟩), ("E", ⟨[]⟩)]
    ⟨DB.mk [("P", ⟨.running [] 5, ⟨["c1"]⟩, [("D", ⟨["c1"]⟩), ("E", ⟨[]⟩)], []⟩),
      ("D", ⟨.stopped, ⟨[]⟩, [], []⟩), ("E", ⟨.stopped, ⟨[]⟩, [], []⟩)], []⟩
    (fun a b => rfl) (by decide)
  obtain ⟨-, -, db', ext, hrun, hfil⟩ := h
  exact ⟨db', ext, hrun, by rw [hfil]; decide⟩

/-- C10.  When the write-phase re-read finds the status `Running`, the
health map is replaced unconditionally and the `started` written back is
the value re-read under the write lock, not the one read before probing: a
service stopped and restarted between the phases gets its fresh health map
overwritten by the stale probe results while its new `started` timestamp is
preserved. -/
theorem C10_stale_overwrite (env : Env) (db : DB) (id : PackageId) (pd : PkgData)
    (results h2 : HealthMap) (t2 s0 : Nat)
    (hpd : lookupAL db.pkgs id = some pd) (hst : pd.status = .running h2 t2)
    (hneq : t2 ≠ s0) :
    (writeCheckpoint id results env ⟨db, []⟩).1 = .ok pd.current_dependents ∧
    ((writeCheckpoint id results env ⟨db, []⟩).2.db.statusOf id =
      some (.running results t2)) ∧
    (writeCheckpoint id results env ⟨db, []⟩).2.db.statusOf id ≠
      some (.running results s0) := by
  rw [run_writeCheckpoint_running id results env db [] hpd hst]
  refine ⟨rfl, ?_, ?_⟩
  · exact DB.statusOf_setStatus_self db id _ hpd
  · rw [DB.statusOf_setStatus_self db id _ hpd]
    intro hcontra
    exact hneq (by injection hcontra with h; injection h)

/-- Witness for C10: a restart between probe and write phases (old started
5, re-read started 9, fresh health map overwritten by stale results). -/
theorem C10_stale_overwrite_witness :
    (lookupAL (DB.mk [("P", ⟨.running [("c1", .success "fresh")] 9, ⟨["c1"]⟩, [], []⟩)]).pkgs
        "P" = some ⟨.running [("c1", .success "fresh")] 9, ⟨["c1"]⟩, [], []⟩) ∧
    (9 : Nat) ≠ 5 ∧
    ((writeCheckpoint "P" [("c1", .failure "stale")]
        ⟨fun _ => .result (.success "ok"), true, fun _ _ => false, false⟩
        ⟨DB.mk [("P", ⟨.running [("c1", .success "fresh")] 9, ⟨["c1"]⟩, [], []⟩)], []⟩).2.db.statusOf
      "P" = some (.running [("c1", .failure "stale")] 9)) := by
  refine ⟨by decide, by decide, ?_⟩
  exact (C10_stale_overwrite
    ⟨fun _ => .result (.success "ok"), true, fun _ _ => false, false⟩
    (DB.mk [("P", ⟨.running [("c1", .success "fresh")] 9, ⟨["c1"]⟩, [], []⟩)]) "P"
    ⟨.running [("c1", .success "fresh")] 9, ⟨["c1"]⟩, [], []⟩
    [("c1", .failure "stale")] [("c1", .success "fresh")] 9 5
    (by decide) rfl (by decide)).2.1

/-- C5.  At the write phase the status is re-read under the write lock:
when still `Running` the health map is replaced by the fresh probe results
with `started` untouched; when no longer `Running` every status field is
left untouched; in both cases the propagation loop then proceeds over the
current dependents using the just-computed probe results, and the commit
phase succeeds. -/
theorem C5_write_phase (env : Env) (db : DB) (id : PackageId) (pd : PkgData)
    (results : HealthMap)
    (hpd : lookupAL db.pkgs id = some pd)
    (hf : ∀ a b, env.edgeFail a b = false) (hsf : env.saveFail = false) :
    (commitPhase id results env ⟨db, []⟩).1 = .ok () ∧
    (∀ h2 t2, pd.status = .running h2 t2 →
      (commitPhase id results env ⟨db, []⟩).2.db.statusOf id =
        some (.running results t2)) ∧
    (pd.status = .stopped →
      ∀ q, (commitPhase id results env ⟨db, []⟩).2.db.statusOf q = db.statusOf q) ∧
    (commitPhase id results env ⟨db, []⟩).2.trace.filter Event.isDispatch =
      pd.current_dependents.map (dispatchEv results) := by
  have hdepmem : ∀ p ∈ pd.current_dependents, p.1 ∈ db.nodesOf := by
    intro p hp
    exact DB.dependent_mem_nodesOf db id hpd (List.mem_map_of_mem Prod.fst hp)
  cases hst : pd.status with
  | running h2 t2 =>
    have hwc := run_writeCheckpoint_running id results env db [] hpd hst
    set s1 : TxState :=
      ⟨db.setStatus id (.running results t2),
       [] ++ [.lockAll [(.statusLoc id, .write), (.dependentsLoc id, .read)],
              .readStatus id, .writeStatus id, .readDependents id, .checkpointSave]⟩ with hs1
    obtain ⟨db2, ext, hrun, hfil⟩ := propagateList_ok id results env hf
      pd.current_dependents s1
      (by
        intro p hp
        show p.1 ∈ (db.setStatus id (.running results t2)).nodesOf
        rw [DB.nodesOf_setStatus]
        exact hdepmem p hp)
    obtain ⟨r', db'', ext'', hrun'', hsp, -, -, -, -⟩ := propagateList_frame id results
      pd.current_dependents env s1
    rw [hrun] at hrun''
    have hdbeq : db2 = db'' := by
      have := congrArg (fun x => x.2.db) hrun''
      simpa using this
    subst hdbeq
    have hstatus2 : ∀ q, db2.statusOf q = s1.db.statusOf q := hsp
    have hfinal : commitPhase id results env ⟨db, []⟩ =
        (.ok (), ⟨db2, s1.trace ++ ext ++ [.txSave]⟩) := by
      simp only [commitPhase, HM.run_bind, hwc]
      rw [hrun]
      simp [txSaveE, hsf]
    refine ⟨by rw [hfinal], ?_, ?_, ?_⟩
    · intro h2' t2' hst'
      injection hst' with hh ht
      subst hh; subst ht
      rw [hfinal]
      show db2.statusOf id = _
      rw [hstatus2 id]
      exact DB.statusOf_setStatus_self db id _ hpd
    · intro hcontra
      cases hcontra
    · rw [hfinal]
      show (s1.trace ++ ext ++ [Event.txSave]).filter Event.isDispatch = _
      rw [List.filter_append, List.filter_append]
      rw [hfil]
      have h1 : s1.trace.filter Event.isDispatch = [] := by
        rw [hs1]
        rfl
      rw [h1]
      simp [Event.isDispatch]
  | stopped =>
    have hwc := run_writeCheckpoint_stopped id results env db [] hpd hst
    set s1 : TxState :=
      ⟨db, [] ++ [.lockAll [(.statusLoc id, .write), (.dependentsLoc id, .read)],
              .readStatus id, .readDependents id, .checkpointSave]⟩ with hs1
    obtain ⟨db2, ext, hrun, hfil⟩ := propagateList_ok id results env hf
      pd.current_dependents s1 (by intro p hp; exact hdepmem p hp)
    obtain ⟨r', db'', ext'', hrun'', hsp, -, -, -, -⟩ := propagateList_frame id results
      pd.current_dependents env s1
    rw [hrun] at hrun''
    have hdbeq : db2 = db'' := by
      have := congrArg (fun x => x.2.db) hrun''
      simpa using this
    subst hdbeq
    have hfinal : commitPhase id results env ⟨db, []⟩ =
        (.ok (), ⟨db2, s1.trace ++ ext ++ [.txSave]⟩) := by
      simp only [commitPhase, HM.run_bind, hwc]
      rw [hrun]
      simp [txSaveE, hsf]
    refine ⟨by rw [hfinal], ?_, ?_, ?_⟩
    · intro h2' t2' hst'
      cases hst'
    · intro _ q
      rw [hfinal]
      show db2.statusOf q = _
      exact hsp q
    · rw [hfinal]
      show (s1.trace ++ ext ++ [Event.txSave]).filter Event.isDispatch = _
      rw [List.filter_append, List.filter_append]
      rw [hfil]
      have h1 : s1.trace.filter Event.isDispatch = [] := by
        rw [hs1]
        rfl
      rw [h1]
      simp [Event.isDispatch]

/-- C7.  Both propagation walks thread a visited set through the whole
pass and never re-enter a visited node: with the fuel `check` supplies they
terminate successfully on arbitrary — in particular cyclic and
diamond-shaped — dependency graphs, the visited set only grows and stays
duplicate-free, and the nodes entered are exactly the newly visited ones,
each entered at most once per pass.  The break walk is evaluated with the
caller's visited set (`check` passes a fresh one per top-level dependent),
the heal walk with the fresh empty set its callee creates. -/
theorem C7_propagation_terminates (env : Env) (db : DB)
    (dependent dependency : PackageId) (err : DependencyError)
    (visited : List PackageId)
    (hf : ∀ a b, env.edgeFail a b = false)
    (hd : dependent ∈ db.nodesOf) (hnd : visited.Nodup) :
    ((breakGo env err (passFuel db) db [(dependent, dependency)] visited).1 = none ∧
     ∃ new, (breakGo env err (passFuel db) db [(dependent, dependency)] visited).2.2.1 =
         new ++ visited ∧
       (new ++ visited).Nodup ∧
       enterNodes (breakGo env err (passFuel db) db
         [(dependent, dependency)] visited).2.2.2 = new.reverse) ∧
    ((healGo env (passFuel db) db [(dependent, dependency)] []).1 = none ∧
     ∃ new, (healGo env (passFuel db) db [(dependent, dependency)] []).2.2.1 = new ∧
       new.Nodup ∧
       enterNodes (healGo env (passFuel db) db
         [(dependent, dependency)] []).2.2.2 = new.reverse) := by
  have hstack : ∀ p ∈ [(dependent, dependency)], p.1 ∈ db.nodesOf := by
    intro p hp
    simp only [List.mem_singleton] at hp
    subst hp
    exact hd
  refine ⟨breakGo_ok env err hf (passFuel db) db [(dependent, dependency)] visited hstack
    (passFuel_sufficient db visited) hnd, ?_⟩
  have h := healGo_ok env hf (passFuel db) db [(dependent, dependency)] [] hstack
    (passFuel_sufficient db []) List.nodup_nil
  obtain ⟨h1, new, hv, hndv, hent⟩ := h
  exact ⟨h1, new, by simpa using hv, by simpa using hndv, hent⟩

/-- Witness for C7 on the two-cycle graph A ↔ B (each the sole dependent of
the other): both walks terminate and enter each node exactly once. -/
theorem C7_propagation_terminates_witness :
    ("A" ∈ (DB.mk [("A", ⟨.stopped, ⟨[]⟩, [("B", ⟨[]⟩)], [("B", .other "x")]⟩),
        ("B", ⟨.stopped, ⟨[]⟩, [("A", ⟨[]⟩)], [("A", .other "x")]⟩)]).nodesOf) ∧
    ((breakGo ⟨fun _ => .result (.success "ok"), true, fun _ _ => false, false⟩
        (.other "e") (passFuel (DB.mk [("A", ⟨.stopped, ⟨[]⟩, [("B", ⟨[]⟩)], [("B", .other "x")]⟩),
          ("B", ⟨.stopped, ⟨[]⟩, [("A", ⟨[]⟩)], [("A", .other "x")]⟩)]))
        (DB.mk [("A", ⟨.stopped, ⟨[]⟩, [("B", ⟨[]⟩)], [("B", .other "x")]⟩),
          ("B", ⟨.stopped, ⟨[]⟩, [("A", ⟨[]⟩)], [("A", .other "x")]⟩)])
        [("A", "B")] []).1 = none) ∧
    (enterNodes (breakGo ⟨fun _ => .result (.success "ok"), true, fun _ _ => false, false⟩
        (.other "e") (passFuel (DB.mk [("A", ⟨.stopped, ⟨[]⟩, [("B", ⟨[]⟩)], [("B", .other "x")]⟩),
          ("B", ⟨.stopped, ⟨[]⟩, [("A", ⟨[]⟩)], [("A", .other "x")]⟩)]))
        (DB.mk [("A", ⟨.stopped, ⟨[]⟩, [("B", ⟨[]⟩)], [("B", .other "x")]⟩),
          ("B", ⟨.stopped, ⟨[]⟩, [("A", ⟨[]⟩)], [("A", .other "x")]⟩)])
        [("A", "B")] []).2.2.2 = ["A", "B"]) ∧
    ((healGo ⟨fun _ => .result (.success "ok"), true, fun _ _ => false, false⟩
        (passFuel (DB.mk [("A", ⟨.stopped, ⟨[]⟩, [("B", ⟨[]⟩)], [("B", .other "x")]⟩),
          ("B", ⟨.stopped, ⟨[]⟩, [("A", ⟨[]⟩)], [("A", .other "x")]⟩)]))
        (DB.mk [("A", ⟨.stopped, ⟨[]⟩, [("B", ⟨[]⟩)], [("B", .other "x")]⟩),
          ("B", ⟨.stopped, ⟨[]⟩, [("A", ⟨[]⟩)], [("A", .other "x")]⟩)])
        [("A", "B")] []).1 = none) := by
  have h := C7_propagation_terminates
    ⟨fun _ => .result (.success "ok"), true, fun _ _ => false, false⟩
    (DB.mk [("A", ⟨.stopped, ⟨[]⟩, [("B", ⟨[]⟩)], [("B", .other "x")]⟩),
      ("B", ⟨.stopped, ⟨[]⟩, [("A", ⟨[]⟩)], [("A", .other "x")]⟩)])
    "A" "B" (.other "e") [] (fun a b => rfl) (by decide) List.nodup_nil
  exact ⟨by decide, h.1.1, by decide, h.2.1⟩

/-- C1.  One cycle's status update and every dependency-edge mutation of its
propagation commit together or not at all: whenever the cycle ends in an
error — a fault injected while recording the Nth of M dependents' edges, or
a failing final commit — the persisted database is exactly the one before
the call: every edge and the status health map are unchanged. -/
theorem C1_atomic_commit (env : Env) (db : DB) (id : PackageId)
    (h : (runCheck env db id).committed = false) :
    (runCheck env db id).db = db ∧
    (∀ a b, (runCheck env db id).db.edgeError a b = db.edgeError a b) ∧
    (∀ q, (runCheck env db id).db.statusOf q = db.statusOf q) := by
  have hdb : (runCheck env db id).db = db := by
    unfold runCheck at h ⊢
    rcases hc : check id env ⟨db, []⟩ with ⟨r, s⟩
    cases r with
    | ok a =>
      rw [hc] at h
      exact Bool.noConfusion h
    | error e => rfl
  exact ⟨hdb, fun a b => by rw [hdb], fun q => by rw [hdb]⟩

/-- Witness for C1: two dependents of P; the fault hits while recording the
second dependent's edge, after the first dependent's edge write and the
status write already happened inside the transaction (both visible in the
trace), yet the persisted database is unchanged. -/
theorem C1_atomic_commit_witness :
    ((runCheck ⟨fun _ => .result (.failure "f"), true,
        fun a b => a = "D2" ∧ b = "P", false⟩
      (DB.mk [("P", ⟨.running [] 5, ⟨["c1"]⟩,
          [("D1", ⟨["c1"]⟩), ("D2", ⟨["c1"]⟩)], []⟩),
        ("D1", ⟨.stopped, ⟨[]⟩, [], []⟩), ("D2", ⟨.stopped, ⟨[]⟩, [], []⟩)])
      "P").committed = false) ∧
    (Event.writeEdge "D1" "P" ∈ (runCheck ⟨fun _ => .result (.failure "f"), true,
        fun a b => a = "D2" ∧ b = "P", false⟩
      (DB.mk [("P", ⟨.running [] 5, ⟨["c1"]⟩,
          [("D1", ⟨["c1"]⟩), ("D2", ⟨["c1"]⟩)], []⟩),
        ("D1", ⟨.stopped, ⟨[]⟩, [], []⟩), ("D2", ⟨.stopped, ⟨[]⟩, [], []⟩)])
      "P").trace) ∧
    (Event.writeStatus "P" ∈ (runCheck ⟨fun _ => .result (.failure "f"), true,
        fun a b => a = "D2" ∧ b = "P", false⟩
      (DB.mk [("P", ⟨.running [] 5, ⟨["c1"]⟩,
          [("D1", ⟨["c1"]⟩), ("D2", ⟨["c1"]⟩)], []⟩),
        ("D1", ⟨.stopped, ⟨[]⟩, [], []⟩), ("D2", ⟨.stopped, ⟨[]⟩, [], []⟩)])
      "P").trace) ∧
    ((runCheck ⟨fun _ => .result (.failure "f"), true,
        fun a b => a = "D2" ∧ b = "P", false⟩
      (DB.mk [("P", ⟨.running [] 5, ⟨["c1"]⟩,
          [("D1", ⟨["c1"]⟩), ("D2", ⟨["c1"]⟩)], []⟩),
        ("D1", ⟨.stopped, ⟨[]⟩, [], []⟩), ("D2", ⟨.stopped, ⟨[]⟩, [], []⟩)])
      "P").db =
      DB.mk [("P", ⟨.running [] 5, ⟨["c1"]⟩,
          [("D1", ⟨["c1"]⟩), ("D2", ⟨["c1"]⟩)], []⟩),
        ("D1", ⟨.stopped, ⟨[]⟩, [], []⟩), ("D2", ⟨.stopped, ⟨[]⟩, [], []⟩)]) := by
  refine ⟨by decide, by decide, by decide, ?_⟩
  exact (C1_atomic_commit ⟨fun _ => .result (.failure "f"), true,
      fun a b => a = "D2" ∧ b = "P", false⟩
    (DB.mk [("P", ⟨.running [] 5, ⟨["c1"]⟩,
        [("D1", ⟨["c1"]⟩), ("D2", ⟨["c1"]⟩)], []⟩),
      ("D1", ⟨.stopped, ⟨[]⟩, [], []⟩), ("D2", ⟨.stopped, ⟨[]⟩, [], []⟩)])
    "P" (by decide)).1

/-- Witness for C2: a concrete running service whose cancellation signal is
cleared; the cycle returns success with the database unchanged, and the
trace shows the single sample after the probes. -/
theorem C2_cancellation_gate_witness :
    (lookupAL (DB.mk [("P", ⟨.running [("c1", .success "ok")] 5, ⟨["c1"]⟩, [], []⟩)]).pkgs
      "P" = some ⟨.running [("c1", .success "ok")] 5, ⟨["c1"]⟩, [], []⟩) ∧
    runCheck ⟨fun _ => .result (.success "ok"), false, fun _ _ => false, false⟩
        (DB.mk [("P", ⟨.running [("c1", .success "ok")] 5, ⟨["c1"]⟩, [], []⟩)]) "P" =
      ⟨DB.mk [("P", ⟨.running [("c1", .success "ok")] 5, ⟨["c1"]⟩, [], []⟩)],
       readTrace "P" ++ probeTrace ⟨["c1"]⟩ ++ [.sample false], true⟩ := by
  refine ⟨by decide, ?_⟩
  obtain ⟨post, -, -, -, h4⟩ := C2_cancellation_gate
    ⟨fun _ => .result (.success "ok"), false, fun _ _ => false, false⟩
    (DB.mk [("P", ⟨.running [("c1", .success "ok")] 5, ⟨["c1"]⟩, [], []⟩)]) "P"
    ⟨.running [("c1", .success "ok")] 5, ⟨["c1"]⟩, [], []⟩
    [("c1", .success "ok")] 5 (by decide) rfl
  exact h4 rfl

/-- Witness for C3: a concrete stopped service; the cycle acquires only the
read-lock pair and changes nothing. -/
theorem C3_not_running_noop_witness :
    (lookupAL (DB.mk [("P", ⟨.stopped, ⟨["c1"]⟩, [("D", ⟨["c1"]⟩)], []⟩)]).pkgs "P" =
      some ⟨.stopped, ⟨["c1"]⟩, [("D", ⟨["c1"]⟩)], []⟩) ∧
    runCheck ⟨fun _ => .result (.failure "f"), true, fun _ _ => false, false⟩
        (DB.mk [("P", ⟨.stopped, ⟨["c1"]⟩, [("D", ⟨["c1"]⟩)], []⟩)]) "P" =
      ⟨DB.mk [("P", ⟨.stopped, ⟨["c1"]⟩, [("D", ⟨["c1"]⟩)], []⟩)], readTrace "P", true⟩ := by
  refine ⟨by decide, ?_⟩
  exact (C3_not_running_noop
    ⟨fun _ => .result (.failure "f"), true, fun _ _ => false, false⟩
    (DB.mk [("P", ⟨.stopped, ⟨["c1"]⟩, [("D", ⟨["c1"]⟩)], []⟩)]) "P"
    ⟨.stopped, ⟨["c1"]⟩, [("D", ⟨["c1"]⟩)], []⟩ (by decide) rfl).1

/-- Witness for C5: a concrete commit phase over a running service with one
failing dependent; it succeeds, replaces the health map keeping `started`,
and dispatches one break. -/
theorem C5_write_phase_witness :
    (commitPhase "P" [("c1", .failure "f")]
        ⟨fun _ => .result (.failure "f"), true, fun _ _ => false, false⟩
        ⟨DB.mk [("P", ⟨.running [] 5, ⟨["c1"]⟩, [("D", ⟨["c1"]⟩)], []⟩),
          ("D", ⟨.stopped, ⟨[]⟩, [], []⟩)], []⟩).1 = .ok () ∧
    ((commitPhase "P" [("c1", .failure "f")]
        ⟨fun _ => .result (.failure "f"), true, fun _ _ => false, false⟩
        ⟨DB.mk [("P", ⟨.running [] 5, ⟨["c1"]⟩, [("D", ⟨["c1"]⟩)], []⟩),
          ("D", ⟨.stopped, ⟨[]⟩, [], []⟩)], []⟩).2.db.statusOf "P" =
      some (.running [("c1", .failure "f")] 5)) := by
  have h := C5_write_phase
    ⟨fun _ => .result (.failure "f"), true, fun _ _ => false, false⟩
    (DB.mk [("P", ⟨.running [] 5, ⟨["c1"]⟩, [("D", ⟨["c1"]⟩)], []⟩),
      ("D", ⟨.stopped, ⟨[]⟩, [], []⟩)]) "P"
    ⟨.running [] 5, ⟨["c1"]⟩, [("D", ⟨["c1"]⟩)], []⟩
    [("c1", .failure "f")] (by decide) (fun a b => rfl) rfl
  exact ⟨h.1, h.2.1 [] 5 rfl⟩

/-- Witness for C6 on a concrete running service with the signal set: the
probes sit strictly between the read checkpoint's save and the write
checkpoint's lock batch. -/
theorem C6_ordering_witness :
    ∃ post,
      (runCheck ⟨fun _ => .result (.success "ok"), true, fun _ _ => false, false⟩
        (DB.mk [("P", ⟨.running [] 5, ⟨["c1", "c2"]⟩, [], []⟩)]) "P").trace =
        readTrace "P" ++ probeTrace ⟨["c1", "c2"]⟩ ++ post ∧
      post.head? = some (.sample true) ∧
      post.tail.head? =
        some (.lockAll [(.statusLoc "P", .write), (.dependentsLoc "P", .read)]) := by
  obtain ⟨post, h1, -, -, -, h5, h6⟩ := C6_ordering
    ⟨fun _ => .result (.success "ok"), true, fun _ _ => false, false⟩
    (DB.mk [("P", ⟨.running [] 5, ⟨["c1", "c2"]⟩, [], []⟩)]) "P"
    ⟨.running [] 5, ⟨["c1", "c2"]⟩, [], []⟩ [] 5 (by decide) rfl
  exact ⟨post, h1, h5, h6 rfl⟩

@[simp] theorem applyWritesL_nil (db : DB) : applyWritesL db [] = db := rfl

theorem applyWritesL_cons (db : DB) (w : (PackageId × PackageId) × DependencyError)
    (ws : List ((PackageId × PackageId) × DependencyError)) :
    applyWritesL db (w :: ws) = applyWritesL (db.setEdge w.1.1 w.1.2 w.2) ws := rfl

/-- A lookup misses exactly when the key is not among the keys. -/
theorem lookupAL_eq_none_iff {α β : Type} [DecidableEq α] (k : α) :
    ∀ l : List (α × β), lookupAL l k = none ↔ k ∉ l.map Prod.fst := by
  intro l
  induction l with
  | nil => simp
  | cons hd rest ih =>
    obtain ⟨k0, v0⟩ := hd
    by_cases hk : k0 = k
    · subst hk
      simp [lookupAL]
    · have hk' : ¬ k = k0 := fun he => hk he.symm
      simp [lookupAL, hk, hk', ih]

/-- Keys of an insert: unchanged when present, appended when absent. -/
theorem insertAL_map_fst {α β : Type} [DecidableEq α] (k : α) (v : β) :
    ∀ l : List (α × β),
      (insertAL k v l).map Prod.fst =
        if k ∈ l.map Prod.fst then l.map Prod.fst else l.map Prod.fst ++ [k] := by
  intro l
  induction l with
  | nil => simp [insertAL]
  | cons hd rest ih =>
    obtain ⟨k0, v0⟩ := hd
    by_cases hk : k0 = k
    · subst hk
      simp [insertAL]
    · have hk' : ¬ k = k0 := fun he => hk he.symm
      by_cases hmem : k ∈ rest.map Prod.fst
      · simp [insertAL, hk, ih, hmem, hk']
      · simp [insertAL, hk, ih, hmem, hk']

/-- Inserting preserves duplicate-free keys. -/
theorem insertAL_keys_nodup {α β : Type} [DecidableEq α] (k : α) (v : β)
    (l : List (α × β)) (h : (l.map Prod.fst).Nodup) :
    ((insertAL k v l).map Prod.fst).Nodup := by
  rw [insertAL_map_fst]
  by_cases hmem : k ∈ l.map Prod.fst
  · simpa [hmem] using h
  · simp only [hmem, if_false]
    rw [List.nodup_append]
    exact ⟨h, List.nodup_singleton k, by simpa using hmem⟩

/-- Every entry of an insert is an old entry or the inserted pair. -/
theorem mem_insertAL {α β : Type} [DecidableEq α] (k : α) (v : β) :
    ∀ (l : List (α × β)) (x : α × β), x ∈ insertAL k v l → x ∈ l ∨ x = (k, v) := by
  intro l
  induction l with
  | nil => intro x hx; simp [insertAL] at hx; simp [hx]
  | cons hd rest ih =>
    obtain ⟨k0, v0⟩ := hd
    intro x hx
    by_cases hk : k0 = k
    · subst hk
      simp only [insertAL, if_pos rfl] at hx
      rcases List.mem_cons.mp hx with rfl | hx
      · exact Or.inr rfl
      · exact Or.inl (List.mem_cons_of_mem _ hx)
    · simp only [insertAL, if_neg hk] at hx
      rcases List.mem_cons.mp hx with rfl | hx
      · exact Or.inl (List.mem_cons_self _ _)
      · rcases ih x hx with hx | hx
        · exact Or.inl (List.mem_cons_of_mem _ hx)
        · exact Or.inr hx

/-- A `setEdge` on a missing package is a no-op. -/
theorem DB.setEdge_missing (db : DB) (a b : PackageId) (v : DependencyError)
    (h : lookupAL db.pkgs a = none) : db.setEdge a b v = db := by
  unfold DB.setEdge DB.modifyPkg
  rw [h]

/-- `setEdge` preserves the package keys. -/
theorem DB.pkgs_map_fst_setEdge (db : DB) (a b : PackageId) (v : DependencyError) :
    (db.setEdge a b v).pkgs.map Prod.fst = db.pkgs.map Prod.fst :=
  DB.pkgs_map_fst_modifyPkg db a _

/-- `setStatus` preserves the package keys. -/
theorem DB.pkgs_map_fst_setStatus (db : DB) (id : PackageId) (st : MainStatus) :
    (db.setStatus id st).pkgs.map Prod.fst = db.pkgs.map Prod.fst :=
  DB.pkgs_map_fst_modifyPkg db id _

/-- A write list preserves the package keys. -/
theorem DB.pkgs_map_fst_applyWritesL (ws : List ((PackageId × PackageId) × DependencyError)) :
    ∀ db : DB, (applyWritesL db ws).pkgs.map Prod.fst = db.pkgs.map Prod.fst := by
  induction ws with
  | nil => intro db; rfl
  | cons w rest ih =>
    intro db
    rw [applyWritesL_cons, ih, DB.pkgs_map_fst_setEdge]

/-- `setEdge` preserves well-formedness. -/
theorem DB.WF_setEdge (db : DB) (a b : PackageId) (v : DependencyError)
    (h : db.WF) : (db.setEdge a b v).WF := by
  obtain ⟨h1, h2⟩ := h
  constructor
  · rw [DB.pkgs_map_fst_setEdge]
    exact h1
  · intro p hp
    unfold DB.setEdge DB.modifyPkg at hp
    cases hlk : lookupAL db.pkgs a with
    | none =>
      rw [hlk] at hp
      exact h2 p hp
    | some q =>
      rw [hlk] at hp
      rcases mem_insertAL _ _ _ _ hp with hp | hp
      · exact h2 p hp
      · subst hp
        exact insertAL_keys_nodup _ _ _ (h2 (a, q) (lookupAL_mem hlk))

/-- `setStatus` preserves well-formedness. -/
theorem DB.WF_setStatus (db : DB) (id : PackageId) (st : MainStatus)
    (h : db.WF) : (db.setStatus id st).WF := by
  obtain ⟨h1, h2⟩ := h
  constructor
  · rw [DB.pkgs_map_fst_setStatus]
    exact h1
  · intro p hp
    unfold DB.setStatus DB.modifyPkg at hp
    cases hlk : lookupAL db.pkgs id with
    | none =>
      rw [hlk] at hp
      exact h2 p hp
    | some q =>
      rw [hlk] at hp
      rcases mem_insertAL _ _ _ _ hp with hp | hp
      · exact h2 p hp
      · subst hp
        exact h2 (id, q) (lookupAL_mem hlk)

/-- A write list preserves well-formedness. -/
theorem DB.WF_applyWritesL (ws : List ((PackageId × PackageId) × DependencyError)) :
    ∀ db : DB, db.WF → (applyWritesL db ws).WF := by
  induction ws with
  | nil => intro db h; exact h
  | cons w rest ih =>
    intro db h
    rw [applyWritesL_cons]
    exact ih _ (DB.WF_setEdge db _ _ _ h)

/-- The error just recorded on an edge of an installed package. -/
theorem DB.edgeError_setEdge_self (db : DB) (a b : PackageId) (v : DependencyError)
    {p : PkgData} (h : lookupAL db.pkgs a = some p) :
    (db.setEdge a b v).edgeError a b = some v := by
  unfold DB.setEdge DB.edgeError DB.modifyPkg
  rw [h]
  rw [lookupAL_insertAL]
  simp [lookupAL_insertAL]

/-- Recording one edge leaves every other edge unchanged. -/
theorem DB.edgeError_setEdge_other (db : DB) (a b : PackageId) (v : DependencyError)
    (a' b' : PackageId) (h : (a, b) ≠ (a', b')) :
    (db.setEdge a b v).edgeError a' b' = db.edgeError a' b' := by
  unfold DB.setEdge DB.edgeError DB.modifyPkg
  cases hlk : lookupAL db.pkgs a with
  | none => rfl
  | some p =>
    rw [lookupAL_insertAL]
    by_cases ha : a = a'
    · subst ha
      have hb : b ≠ b' := by
        intro hb
        exact h (by rw [hb])
      simp only [if_pos rfl, hlk]
      simp [lookupAL_insertAL, hb]
    · simp [ha]

/-- A write list whose keys avoid an edge leaves that edge unchanged. -/
theorem DB.edgeError_applyWritesL_stable
    (ws : List ((PackageId × PackageId) × DependencyError)) (a b : PackageId) :
    ∀ db : DB, (∀ w ∈ ws, w.1 ≠ (a, b)) →
      (applyWritesL db ws).edgeError a b = db.edgeError a b := by
  induction ws with
  | nil => intro db _; rfl
  | cons w rest ih =>
    intro db hw
    rw [applyWritesL_cons]
    rw [ih _ (fun w' hw' => hw w' (List.mem_cons_of_mem _ hw'))]
    exact DB.edgeError_setEdge_other db _ _ _ a b
      (by
        have := hw w (List.mem_cons_self _ _)
        intro hcontra
        exact this (by rw [← hcontra]))

/-- Rewriting an edge with the error it already carries is the identity. -/
theorem DB.setEdge_self (db : DB) (a b : PackageId) (v : DependencyError)
    (h : db.edgeError a b = some v) : db.setEdge a b v = db := by
  unfold DB.edgeError at h
  unfold DB.setEdge DB.modifyPkg
  cases hlk : lookupAL db.pkgs a with
  | none => rfl
  | some p =>
    rw [hlk] at h
    simp only [Option.bind] at h
    have hins : insertAL b v p.dependency_errors = p.dependency_errors :=
      insertAL_self b v _ h
    dsimp only
    rw [hins]
    have hp : { p with dependency_errors := p.dependency_errors } = p := rfl
    rw [hp, insertAL_self a p db.pkgs hlk]

/-- Rewriting a status with the value it already carries is the identity. -/
theorem DB.setStatus_self (db : DB) (id : PackageId) {pd : PkgData}
    (hpd : lookupAL db.pkgs id = some pd) (h : pd.status = st) :
    db.setStatus id st = db := by
  unfold DB.setStatus DB.modifyPkg
  rw [hpd]
  subst h
  dsimp only
  have hp : { pd with status := pd.status } = pd := rfl
  rw [hp, insertAL_self id pd db.pkgs hpd]

theorem errSim_list_refl (S : List (PackageId × PackageId)) (k : PackageId) :
    ∀ l, List.Forall₂ (errSim S k) l l := by
  intro l
  induction l with
  | nil => exact List.Forall₂.nil
  | cons hd rest ih => exact List.Forall₂.cons ⟨rfl, Or.inl rfl⟩ ih

theorem pkgSim_refl (S : List (PackageId × PackageId)) (x : PackageId × PkgData) :
    pkgSim S x x :=
  ⟨rfl, rfl, rfl, rfl, errSim_list_refl S x.1 _⟩

theorem DBSim_refl (S : List (PackageId × PackageId)) (d : DB) : DBSim S d d := by
  unfold DBSim
  induction d.pkgs with
  | nil => exact List.Forall₂.nil
  | cons hd rest ih => exact List.Forall₂.cons (pkgSim_refl S hd) ih

/-- Error lists similar without exemption are equal. -/
theorem forall2_errSim_nil_eq (k : PackageId) :
    ∀ {l₁ l₂ : List (PackageId × DependencyError)},
      List.Forall₂ (errSim [] k) l₁ l₂ → l₁ = l₂ := by
  intro l₁ l₂ h
  induction h with
  | nil => rfl
  | cons he hr ihe =>
    rename_i a b m₁ m₂
    obtain ⟨he1, he2⟩ := he
    rcases he2 with he2 | he2
    · have hab : a = b := by
        obtain ⟨a1, a2⟩ := a; obtain ⟨b1, b2⟩ := b
        simp only at he1 he2
        rw [he1, he2]
      rw [hab, ihe]
    · simp at he2

/-- Entry lists similar without exemption are equal. -/
theorem forall2_pkgSim_nil_eq :
    ∀ {l₁ l₂ : List (PackageId × PkgData)}, List.Forall₂ (pkgSim []) l₁ l₂ → l₁ = l₂ := by
  intro l₁ l₂ h
  induction h with
  | nil => rfl
  | cons hxy hrest ih =>
    rename_i x y l₁ l₂
    obtain ⟨h1, h2, h3, h4, h5⟩ := hxy
    have herr : x.2.dependency_errors = y.2.dependency_errors :=
      forall2_errSim_nil_eq x.1 h5
    have hx : x = y := by
      obtain ⟨x1, x2⟩ := x; obtain ⟨y1, y2⟩ := y
      simp only at h1
      obtain ⟨xs, xm, xc, xe⟩ := x2; obtain ⟨ys, ym, yc, ye⟩ := y2
      simp only at h2 h3 h4 herr
      rw [h1, h2, h3, h4, herr]
    rw [hx, ih]

/-- With no exemption, similarity is equality. -/
theorem DBSim_nil_eq (d₁ d₂ : DB) (h : DBSim [] d₁ d₂) : d₁ = d₂ := by
  have hp : d₁.pkgs = d₂.pkgs := forall2_pkgSim_nil_eq h
  cases d₁; cases d₂; simpa using hp

/-- Similarity weakens as the exemption set grows. -/
theorem DBSim_mono {S S' : List (PackageId × PackageId)} (hss : ∀ x ∈ S, x ∈ S')
    (d₁ d₂ : DB) (h : DBSim S d₁ d₂) : DBSim S' d₁ d₂ := by
  unfold DBSim at h ⊢
  refine h.imp ?_
  intro x y hxy
  obtain ⟨h1, h2, h3, h4, h5⟩ := hxy
  refine ⟨h1, h2, h3, h4, h5.imp ?_⟩
  intro a b hab
  exact ⟨hab.1, hab.2.imp id fun hm => hss _ hm⟩

/-- Related lists have lookups that miss together or hit related values. -/
theorem forall2_lookupAL {β : Type} {R : (PackageId × β) → (PackageId × β) → Prop}
    (hfst : ∀ x y, R x y → x.1 = y.1) :
    ∀ {l₁ l₂ : List (PackageId × β)}, List.Forall₂ R l₁ l₂ → ∀ k,
      (lookupAL l₁ k = none ∧ lookupAL l₂ k = none) ∨
      (∃ v₁ v₂, lookupAL l₁ k = some v₁ ∧ lookupAL l₂ k = some v₂ ∧ R (k, v₁) (k, v₂)) := by
  intro l₁ l₂ h
  induction h with
  | nil => intro k; exact Or.inl ⟨rfl, rfl⟩
  | cons hxy hrest ih =>
    rename_i x y m₁ m₂
    intro k
    obtain ⟨x1, x2⟩ := x
    obtain ⟨y1, y2⟩ := y
    have hk : x1 = y1 := hfst _ _ hxy
    subst hk
    by_cases hx : x1 = k
    · subst hx
      exact Or.inr ⟨x2, y2, by simp [lookupAL], by simp [lookupAL], hxy⟩
    · rcases ih k with ⟨h1, h2⟩ | ⟨v₁, v₂, h1, h2, h3⟩
      · exact Or.inl ⟨by simp [lookupAL, hx, h1], by simp [lookupAL, hx, h2]⟩
      · exact Or.inr ⟨v₁, v₂, by simp [lookupAL, hx, h1], by simp [lookupAL, hx, h2], h3⟩

/-- Strengthen a pointwise relation on entries whose key is not `k`. -/
theorem forall2_strengthen {β : Type} {R R' : (PackageId × β) → (PackageId × β) → Prop}
    (k : PackageId) (hstr : ∀ x y, R x y → x.1 ≠ k → R' x y) :
    ∀ {l₁ l₂ : List (PackageId × β)}, List.Forall₂ R l₁ l₂ →
      (∀ x ∈ l₁, x.1 ≠ k) → List.Forall₂ R' l₁ l₂ := by
  intro l₁ l₂ h
  induction h with
  | nil => intro _; exact List.Forall₂.nil
  | cons hxy hrest ih =>
    rename_i x y m₁ m₂
    intro hkeys
    exact List.Forall₂.cons (hstr x y hxy (hkeys x (List.mem_cons_self _ _)))
      (ih fun z hz => hkeys z (List.mem_cons_of_mem _ hz))

/-- Insert related values at the same key into related lists with
duplicate-free keys; entries off the key strengthen to the new relation. -/
theorem forall2_insertAL_rel {β : Type} {R R' : (PackageId × β) → (PackageId × β) → Prop}
    (k : PackageId) (v₁ v₂ : β) (hv : R' (k, v₁) (k, v₂))
    (hstr : ∀ x y, R x y → x.1 ≠ k → R' x y)
    (hfst : ∀ x y, R x y → x.1 = y.1) :
    ∀ {l₁ l₂ : List (PackageId × β)}, List.Forall₂ R l₁ l₂ →
      (l₁.map Prod.fst).Nodup →
      List.Forall₂ R' (insertAL k v₁ l₁) (insertAL k v₂ l₂) := by
  intro l₁ l₂ h
  induction h with
  | nil => intro _; exact List.Forall₂.cons hv List.Forall₂.nil
  | cons hxy hrest ih =>
    rename_i x y m₁ m₂
    intro hnd
    obtain ⟨x1, x2⟩ := x
    obtain ⟨y1, y2⟩ := y
    have hk : x1 = y1 := hfst _ _ hxy
    subst hk
    simp only [List.map_cons, List.nodup_cons] at hnd
    by_cases hx : x1 = k
    · subst hx
      simp only [insertAL, if_pos rfl]
      refine List.Forall₂.cons hv ?_
      refine forall2_strengthen x1 hstr hrest ?_
      intro z hz hzk
      exact hnd.1 (by rw [← hzk]; exact List.mem_map_of_mem Prod.fst hz)
    · simp only [insertAL, if_neg hx]
      exact List.Forall₂.cons (hstr _ _ hxy hx) (ih hnd.2)

/-- Writing the same error to the same edge of two similar databases keeps
them similar, and discharges that edge's exemption. -/
theorem DBSim_setEdge (S : List (PackageId × PackageId)) (a b : PackageId)
    (v : DependencyError) (d₁ d₂ : DB) (hwf : d₁.WF) (h : DBSim S d₁ d₂) :
    DBSim (S.filter (fun x => x ≠ (a, b))) (d₁.setEdge a b v) (d₂.setEdge a b v) := by
  have hfstP : ∀ x y : PackageId × PkgData, pkgSim S x y → x.1 = y.1 := fun x y hxy => hxy.1
  have hstrP : ∀ x y : PackageId × PkgData, pkgSim S x y → x.1 ≠ a →
      pkgSim (S.filter (fun x => x ≠ (a, b))) x y := by
    intro x y hxy hxa
    obtain ⟨h1, h2, h3, h4, h5⟩ := hxy
    refine ⟨h1, h2, h3, h4, h5.imp ?_⟩
    intro p q hpq
    refine ⟨hpq.1, hpq.2.imp id fun hm => ?_⟩
    rw [List.mem_filter]
    refine ⟨hm, ?_⟩
    simp only [ne_eq, decide_not]
    simp [Prod.ext_iff, hxa]
  rcases forall2_lookupAL hfstP h a with ⟨h1, h2⟩ | ⟨p₁, p₂, h1, h2, h3⟩
  · rw [DB.setEdge_missing d₁ a b v h1, DB.setEdge_missing d₂ a b v h2]
    unfold DBSim at h ⊢
    refine forall2_strengthen a hstrP h ?_
    intro z hz hza
    rw [lookupAL_eq_none_iff] at h1
    exact h1 (by rw [← hza]; exact List.mem_map_of_mem Prod.fst hz)
  · show List.Forall₂ _ (d₁.setEdge a b v).pkgs (d₂.setEdge a b v).pkgs
    unfold DB.setEdge DB.modifyPkg
    rw [h1, h2]
    obtain ⟨hp1, hp2, hp3, hp4, hp5⟩ := h3
    have herrnd : (p₁.dependency_errors.map Prod.fst).Nodup :=
      hwf.2 (a, p₁) (lookupAL_mem h1)
    have hq : pkgSim (S.filter (fun x => x ≠ (a, b)))
        (a, { p₁ with dependency_errors := insertAL b v p₁.dependency_errors })
        (a, { p₂ with dependency_errors := insertAL b v p₂.dependency_errors }) := by
      refine ⟨rfl, hp2, hp3, hp4, ?_⟩
      refine forall2_insertAL_rel b v v ⟨rfl, Or.inl rfl⟩ ?_ (fun x y hxy => hxy.1) hp5 herrnd
      intro x y hxy hxb
      refine ⟨hxy.1, hxy.2.imp id fun hm => ?_⟩
      rw [List.mem_filter]
      refine ⟨hm, ?_⟩
      simp only [ne_eq, decide_not]
      simp [Prod.ext_iff, hxb]
    exact forall2_insertAL_rel a _ _ hq hstrP hfstP h hwf.1

/-- Applying one write list covering every exempted edge to two similar
databases yields equal databases. -/
theorem DBSim_applyWritesL (ws : List ((PackageId × PackageId) × DependencyError)) :
    ∀ (S : List (PackageId × PackageId)) (d₁ d₂ : DB), d₁.WF → DBSim S d₁ d₂ →
      (∀ x ∈ S, x ∈ ws.map Prod.fst) →
      applyWritesL d₁ ws = applyWritesL d₂ ws := by
  induction ws with
  | nil =>
    intro S d₁ d₂ _ hsim hsub
    have hS : S = [] := by
      cases S with
      | nil => rfl
      | cons x rest => exact absurd (hsub x (List.mem_cons_self _ _)) (by simp)
    subst hS
    exact DBSim_nil_eq d₁ d₂ hsim
  | cons w rest ih =>
    intro S d₁ d₂ hwf hsim hsub
    rw [applyWritesL_cons, applyWritesL_cons]
    refine ih (S.filter (fun x => x ≠ (w.1.1, w.1.2))) _ _
      (DB.WF_setEdge d₁ _ _ _ hwf) ?_ ?_
    · exact DBSim_setEdge S w.1.1 w.1.2 w.2 d₁ d₂ hwf hsim
    · intro x hx
      rw [List.mem_filter] at hx
      have hx1 := hsub x hx.1
      simp only [List.map_cons, List.mem_cons] at hx1
      rcases hx1 with hx1 | hx1
      · exfalso
        have := hx.2
        simp only [ne_eq, decide_not, Bool.not_eq_eq_eq_not, Bool.not_true,
          decide_eq_false_iff_not] at this
        exact this (by rw [hx1])
      · exact hx1

/-- Entry-wise reflexive relations hold between a list and itself. -/
theorem forall2_refl_of {α β : Type} {R : (α × β) → (α × β) → Prop}
    (hrefl : ∀ x, R x x) : ∀ l : List (α × β), List.Forall₂ R l l := by
  intro l
  induction l with
  | nil => exact List.Forall₂.nil
  | cons hd rest ih => exact List.Forall₂.cons (hrefl hd) ih

/-- Replacing a present binding relates the new list to the old one entry
by entry, given the new value relates to the old one. -/
theorem forall2_insertAL_left {α β : Type} [DecidableEq α]
    {R : (α × β) → (α × β) → Prop} (hrefl : ∀ x, R x x) (k : α) (q p : β)
    (hq : R (k, q) (k, p)) :
    ∀ l : List (α × β), lookupAL l k = some p →
      List.Forall₂ R (insertAL k q l) l := by
  intro l
  induction l with
  | nil => intro h; simp [lookupAL] at h
  | cons hd rest ih =>
    obtain ⟨k0, p0⟩ := hd
    intro h
    by_cases hk : k0 = k
    · subst hk
      rw [lookupAL_cons, if_pos rfl] at h
      injection h with h
      subst h
      simp only [insertAL, if_pos rfl]
      exact List.Forall₂.cons hq (forall2_refl_of hrefl rest)
    · rw [lookupAL_cons] at h
      simp only [if_neg hk] at h
      simp only [insertAL, if_neg hk]
      exact List.Forall₂.cons (hrefl _) (ih h)

/-- Rewriting a present edge differs from the original only at that edge. -/
theorem DBSim_setEdge_self_left (d : DB) (a b : PackageId) (v w : DependencyError)
    (h : d.edgeError a b = some w) :
    DBSim [(a, b)] (d.setEdge a b v) d := by
  unfold DB.edgeError at h
  cases hlk : lookupAL d.pkgs a with
  | none => rw [hlk] at h; simp at h
  | some p =>
    rw [hlk, Option.some_bind] at h
    show List.Forall₂ _ (d.setEdge a b v).pkgs d.pkgs
    unfold DB.setEdge DB.modifyPkg
    rw [hlk]
    dsimp only
    refine forall2_insertAL_left (pkgSim_refl _) a _ p ?_ d.pkgs hlk
    refine ⟨rfl, rfl, rfl, rfl, ?_⟩
    exact forall2_insertAL_left (fun x => ⟨rfl, Or.inl rfl⟩) b v w
      ⟨rfl, Or.inr (List.mem_singleton.mpr rfl)⟩ p.dependency_errors h

/-- A present edge stays present across a single edge write. -/
theorem DB.edgeError_setEdge_isSome (db : DB) (x y a b : PackageId) (v : DependencyError)
    (h : (db.edgeError a b).isSome) : ((db.setEdge x y v).edgeError a b).isSome := by
  by_cases hxy : (x, y) = (a, b)
  · obtain ⟨hx, hy⟩ := Prod.mk.injEq x y a b ▸ hxy
    subst hx; subst hy
    cases hlk : lookupAL db.pkgs x with
    | none =>
      unfold DB.edgeError at h
      rw [hlk] at h
      simp at h
    | some p =>
      rw [DB.edgeError_setEdge_self db x y v hlk]
      rfl
  · rw [DB.edgeError_setEdge_other db x y v a b hxy]
    exact h

/-- A present edge stays present across a write list. -/
theorem DB.edgeError_applyWritesL_isSome
    (ws : List ((PackageId × PackageId) × DependencyError)) (a b : PackageId) :
    ∀ db : DB, (db.edgeError a b).isSome →
      ((applyWritesL db ws).edgeError a b).isSome := by
  induction ws with
  | nil => intro db h; exact h
  | cons w rest ih =>
    intro db h
    rw [applyWritesL_cons]
    exact ih _ (DB.edgeError_setEdge_isSome db _ _ a b _ h)

/-- Applying one write list twice is the same as applying it once. -/
theorem applyWritesL_absorb (ws : List ((PackageId × PackageId) × DependencyError)) :
    ∀ X : DB, X.WF → applyWritesL (applyWritesL X ws) ws = applyWritesL X ws := by
  induction ws with
  | nil => intro X _; rfl
  | cons w rest ih =>
    intro X hwf
    obtain ⟨⟨a, b⟩, v⟩ := w
    rw [applyWritesL_cons]
    rw [show applyWritesL X (((a, b), v) :: rest) =
      applyWritesL (X.setEdge a b v) rest from rfl]
    set M := X.setEdge a b v with hM
    set D := applyWritesL M rest with hD
    have hwfM : M.WF := DB.WF_setEdge X a b v hwf
    have hwfD : D.WF := DB.WF_applyWritesL rest M hwfM
    cases hlk : lookupAL X.pkgs a with
    | none =>
      have hMX : M = X := DB.setEdge_missing X a b v hlk
      have hlkD : lookupAL D.pkgs a = none := by
        rw [lookupAL_eq_none_iff] at hlk ⊢
        rw [hD, DB.pkgs_map_fst_applyWritesL]
        rw [hMX]
        exact hlk
      rw [DB.setEdge_missing D a b v hlkD, hD]
      exact ih M hwfM
    | some p =>
      by_cases hb : (a, b) ∈ rest.map Prod.fst
      · have hMsome : M.edgeError a b = some v := DB.edgeError_setEdge_self X a b v hlk
        have hDsome : (D.edgeError a b).isSome := by
          rw [hD]
          exact DB.edgeError_applyWritesL_isSome rest a b M (by rw [hMsome]; rfl)
        obtain ⟨w, hw⟩ := Option.isSome_iff_exists.mp hDsome
        have hsim : DBSim [(a, b)] (D.setEdge a b v) D :=
          DBSim_setEdge_self_left D a b v w hw
        have h1 : applyWritesL (D.setEdge a b v) rest = applyWritesL D rest := by
          refine DBSim_applyWritesL rest [(a, b)] _ D
            (DB.WF_setEdge D a b v hwfD) hsim ?_
          intro x hx
          simp only [List.mem_singleton] at hx
          rw [hx]
          exact hb
        rw [h1, hD]
        exact ih M hwfM
      · have hstable : D.edgeError a b = some v := by
          rw [hD, DB.edgeError_applyWritesL_stable rest a b M ?_,
            DB.edgeError_setEdge_self X a b v hlk]
          intro w hwmem hweq
          exact hb (hweq ▸ List.mem_map_of_mem Prod.fst hwmem)
        rw [DB.setEdge_self D a b v hstable, hD]
        exact ih M hwfM

/-! ## Stage 4 draft -/

theorem applyWritesL_append (ws₁ ws₂ : List ((PackageId × PackageId) × DependencyError)) :
    ∀ db : DB, applyWritesL db (ws₁ ++ ws₂) = applyWritesL (applyWritesL db ws₁) ws₂ := by
  induction ws₁ with
  | nil => intro db; rfl
  | cons w rest ih =>
    intro db
    rw [List.cons_append, applyWritesL_cons, applyWritesL_cons, ih]

theorem DB.statusOf_applyWritesL (ws : List ((PackageId × PackageId) × DependencyError)) :
    ∀ (db : DB) (q : PackageId), (applyWritesL db ws).statusOf q = db.statusOf q := by
  induction ws with
  | nil => intro db q; rfl
  | cons w rest ih =>
    intro db q
    rw [applyWritesL_cons, ih, DB.statusOf_setEdge]

theorem DB.manifestOf_applyWritesL (ws : List ((PackageId × PackageId) × DependencyError)) :
    ∀ (db : DB) (q : PackageId), (applyWritesL db ws).manifestOf q = db.manifestOf q := by
  induction ws with
  | nil => intro db q; rfl
  | cons w rest ih =>
    intro db q
    rw [applyWritesL_cons, ih, DB.manifestOf_setEdge]

theorem DB.dependentsOf_applyWritesL (ws : List ((PackageId × PackageId) × DependencyError)) :
    ∀ (db : DB) (q : PackageId), (applyWritesL db ws).dependentsOf q = db.dependentsOf q := by
  induction ws with
  | nil => intro db q; rfl
  | cons w rest ih =>
    intro db q
    rw [applyWritesL_cons, ih, DB.dependentsOf_setEdge]

theorem DB.depsOf_applyWritesL (ws : List ((PackageId × PackageId) × DependencyError)) :
    ∀ (db : DB) (q : PackageId), (applyWritesL db ws).depsOf q = db.depsOf q := by
  induction ws with
  | nil => intro db q; rfl
  | cons w rest ih =>
    intro db q
    rw [applyWritesL_cons, ih, DB.depsOf_setEdge]

theorem DB.nodesOf_applyWritesL (ws : List ((PackageId × PackageId) × DependencyError)) :
    ∀ db : DB, (applyWritesL db ws).nodesOf = db.nodesOf := by
  induction ws with
  | nil => intro db; rfl
  | cons w rest ih =>
    intro db
    rw [applyWritesL_cons, ih, DB.nodesOf_setEdge]

theorem passFuel_congr (d₁ d₂ : DB) (hn : d₁.nodesOf = d₂.nodesOf)
    (hd : ∀ n, d₁.depsOf n = d₂.depsOf n) : passFuel d₁ = passFuel d₂ := by
  unfold passFuel
  rw [hn]
  congr 1
  exact Finset.sum_congr rfl fun n _ => by rw [hd n]

/-- The break walk's control flow never reads a recorded error: two
databases with the same dependents adjacency run in lockstep, produce the
same outcome, visited set and events, and their final states are one shared
write list applied to each starting state. -/
theorem breakGo_parallel (env : Env) (err : DependencyError) :
    ∀ (fuel : Nat) (stack : List (PackageId × PackageId)) (visited : List PackageId)
      (d₁ d₂ : DB), (∀ n, d₁.depsOf n = d₂.depsOf n) →
      ∃ ws : List ((PackageId × PackageId) × DependencyError),
        (breakGo env err fuel d₁ stack visited).1 =
          (breakGo env err fuel d₂ stack visited).1 ∧
        (breakGo env err fuel d₁ stack visited).2.1 = applyWritesL d₁ ws ∧
        (breakGo env err fuel d₂ stack visited).2.1 = applyWritesL d₂ ws ∧
        (breakGo env err fuel d₁ stack visited).2.2.1 =
          (breakGo env err fuel d₂ stack visited).2.2.1 ∧
        (breakGo env err fuel d₁ stack visited).2.2.2 =
          (breakGo env err fuel d₂ stack visited).2.2.2 := by
  intro fuel
  induction fuel with
  | zero =>
    intro stack visited d₁ d₂ _
    cases stack with
    | nil => exact ⟨[], by simp [breakGo], by simp [breakGo], by simp [breakGo],
        by simp [breakGo], by simp [breakGo]⟩
    | cons hd rest => exact ⟨[], by simp [breakGo], by simp [breakGo], by simp [breakGo],
        by simp [breakGo], by simp [breakGo]⟩
  | succ fuel ih =>
    intro stack visited d₁ d₂ hdeps
    cases stack with
    | nil => exact ⟨[], by simp [breakGo], by simp [breakGo], by simp [breakGo],
        by simp [breakGo], by simp [breakGo]⟩
    | cons hd rest =>
      obtain ⟨d, dep⟩ := hd
      by_cases hmem : d ∈ visited
      · have e1 : breakGo env err (fuel + 1) d₁ ((d, dep) :: rest) visited =
            breakGo env err fuel d₁ rest visited := by
          rw [breakGo.eq_def]
          simp [hmem]
        have e2 : breakGo env err (fuel + 1) d₂ ((d, dep) :: rest) visited =
            breakGo env err fuel d₂ rest visited := by
          rw [breakGo.eq_def]
          simp [hmem]
        rw [e1, e2]
        exact ih rest visited d₁ d₂ hdeps
      · by_cases hfail : env.edgeFail d dep
        · have e1 : breakGo env err (fuel + 1) d₁ ((d, dep) :: rest) visited =
              (some .propagation, d₁, visited, [.breakEnter d]) := by
            rw [breakGo.eq_def]
            simp [hmem, hfail]
          have e2 : breakGo env err (fuel + 1) d₂ ((d, dep) :: rest) visited =
              (some .propagation, d₂, visited, [.breakEnter d]) := by
            rw [breakGo.eq_def]
            simp [hmem, hfail]
          rw [e1, e2]
          exact ⟨[], rfl, rfl, rfl, rfl, rfl⟩
        · have hdeps' : ∀ n, (d₁.setEdge d dep err).depsOf n =
              (d₂.setEdge d dep err).depsOf n := by
            intro n
            rw [DB.depsOf_setEdge, DB.depsOf_setEdge, hdeps]
          have hpush : ((d₂.setEdge d dep err).depsOf d).map (fun x => (x, d)) =
              ((d₁.setEdge d dep err).depsOf d).map (fun x => (x, d)) := by
            rw [hdeps' d]
          have e1 : breakGo env err (fuel + 1) d₁ ((d, dep) :: rest) visited =
              ((breakGo env err fuel (d₁.setEdge d dep err)
                  (((d₁.setEdge d dep err).depsOf d).map (fun x => (x, d)) ++ rest)
                  (d :: visited)).1,
               (breakGo env err fuel (d₁.setEdge d dep err)
                  (((d₁.setEdge d dep err).depsOf d).map (fun x => (x, d)) ++ rest)
                  (d :: visited)).2.1,
               (breakGo env err fuel (d₁.setEdge d dep err)
                  (((d₁.setEdge d dep err).depsOf d).map (fun x => (x, d)) ++ rest)
                  (d :: visited)).2.2.1,
               .breakEnter d :: .writeEdge d dep ::
                 (breakGo env err fuel (d₁.setEdge d dep err)
                    (((d₁.setEdge d dep err).depsOf d).map (fun x => (x, d)) ++ rest)
                    (d :: visited)).2.2.2) := by
            rw [breakGo.eq_def]
            simp only [if_neg hmem, if_neg hfail]
          have e2 : breakGo env err (fuel + 1) d₂ ((d, dep) :: rest) visited =
              ((breakGo env err fuel (d₂.setEdge d dep err)
                  (((d₁.setEdge d dep err).depsOf d).map (fun x => (x, d)) ++ rest)
                  (d :: visited)).1,
               (breakGo env err fuel (d₂.setEdge d dep err)
                  (((d₁.setEdge d dep err).depsOf d).map (fun x => (x, d)) ++ rest)
                  (d :: visited)).2.1,
               (breakGo env err fuel (d₂.setEdge d dep err)
                  (((d₁.setEdge d dep err).depsOf d).map (fun x => (x, d)) ++ rest)
                  (d :: visited)).2.2.1,
               .breakEnter d :: .writeEdge d dep ::
                 (breakGo env err fuel (d₂.setEdge d dep err)
                    (((d₁.setEdge d dep err).depsOf d).map (fun x => (x, d)) ++ rest)
                    (d :: visited)).2.2.2) := by
            rw [breakGo.eq_def]
            simp only [if_neg hmem, if_neg hfail]
            rw [hpush]
          obtain ⟨ws, h1, h2, h3, h4, h5⟩ :=
            ih (((d₁.setEdge d dep err).depsOf d).map (fun x => (x, d)) ++ rest)
              (d :: visited) (d₁.setEdge d dep err) (d₂.setEdge d dep err) hdeps'
          refine ⟨((d, dep), err) :: ws, ?_, ?_, ?_, ?_, ?_⟩
          · rw [e1, e2]
            exact h1
          · rw [e1, applyWritesL_cons]
            exact h2
          · rw [e2, applyWritesL_cons]
            exact h3
          · rw [e1, e2]
            exact h4
          · rw [e1, e2]
            rw [h5]

/-- The propagation loop in the all-break case runs in lockstep on two
databases sharing a dependents adjacency: same outcome, same appended
events, and final states one shared write list applied to each start. -/
theorem propagateList_parallel (id : PackageId) (results : HealthMap) (env : Env) :
    ∀ (deps : List (PackageId × DependencyInfo)) (d₁ d₂ : DB) (t₁ t₂ : List Event),
      (∀ n, d₁.depsOf n = d₂.depsOf n) → d₁.nodesOf = d₂.nodesOf →
      (∀ p ∈ deps, (computeFailures results p.2).isEmpty = false) →
      ∃ (r : Except Err Unit) (ext : List Event)
        (ws : List ((PackageId × PackageId) × DependencyError)),
        propagateList id results deps env ⟨d₁, t₁⟩ = (r, ⟨applyWritesL d₁ ws, t₁ ++ ext⟩) ∧
        propagateList id results deps env ⟨d₂, t₂⟩ = (r, ⟨applyWritesL d₂ ws, t₂ ++ ext⟩) := by
  intro deps
  induction deps with
  | nil =>
    intro d₁ d₂ t₁ t₂ _ _ _
    exact ⟨.ok (), [], [], by simp [propagateList, HM.run_pure],
      by simp [propagateList, HM.run_pure]⟩
  | cons hd rest ih =>
    intro d₁ d₂ t₁ t₂ hdeps hn hbr
    obtain ⟨dependent, info⟩ := hd
    have hemp : (computeFailures results info).isEmpty = false :=
      hbr (dependent, info) (List.mem_cons_self _ _)
    rw [run_propagateList_cons, run_propagateList_cons]
    rw [if_neg (by simp [hemp]), if_neg (by simp [hemp])]
    have hfuel : passFuel d₂ = passFuel d₁ :=
      passFuel_congr d₂ d₁ hn.symm fun n => (hdeps n).symm
    simp only [hfuel]
    rcases hgo₁ : breakGo env (.healthChecksFailed (computeFailures results info))
        (passFuel d₁) d₁ [(dependent, id)] [] with ⟨r₁, db₁, v₁, ev₁⟩
    rcases hgo₂ : breakGo env (.healthChecksFailed (computeFailures results info))
        (passFuel d₁) d₂ [(dependent, id)] [] with ⟨r₂, db₂, v₂, ev₂⟩
    obtain ⟨ws₀, h1, h2, h3, h4, h5⟩ :=
      breakGo_parallel env (.healthChecksFailed (computeFailures results info))
        (passFuel d₁) [(dependent, id)] [] d₁ d₂ hdeps
    simp only [hgo₁, hgo₂] at h1 h2 h3 h5
    subst h1
    subst h5
    subst h2
    subst h3
    cases r₁ with
    | some e =>
      exact ⟨.error e,
        .dispatchBreak dependent (computeFailures results info) :: ev₁, ws₀,
        rfl, rfl⟩
    | none =>
      dsimp only
      have hdeps' : ∀ n, (applyWritesL d₁ ws₀).depsOf n = (applyWritesL d₂ ws₀).depsOf n := by
        intro n
        rw [DB.depsOf_applyWritesL, DB.depsOf_applyWritesL, hdeps]
      have hn' : (applyWritesL d₁ ws₀).nodesOf = (applyWritesL d₂ ws₀).nodesOf := by
        rw [DB.nodesOf_applyWritesL, DB.nodesOf_applyWritesL, hn]
      obtain ⟨r, ext', ws', hrun₁, hrun₂⟩ :=
        ih (applyWritesL d₁ ws₀) (applyWritesL d₂ ws₀)
          (t₁ ++ .dispatchBreak dependent (computeFailures results info) :: ev₁)
          (t₂ ++ .dispatchBreak dependent (computeFailures results info) :: ev₁)
          hdeps' hn' (fun p hp => hbr p (List.mem_cons_of_mem _ hp))
      refine ⟨r, .dispatchBreak dependent (computeFailures results info) :: (ev₁ ++ ext'),
        ws₀ ++ ws', ?_, ?_⟩
      · rw [hrun₁, applyWritesL_append]
        simp
      · rw [hrun₂, applyWritesL_append]
        simp

/-- One committed cycle of a running service, characterized end to end: the
propagation loop's run from the post-checkpoint state, the cycle's
`RunResult`, and the frame facts carrying every package's status, manifest,
dependents and the node universe from the post-status-write state to the
persisted one. -/
theorem runCheck_running_commit (env : Env) (db : DB) (id : PackageId) {pd : PkgData}
    {h0 : HealthMap} {t0 : Nat}
    (hpd : lookupAL db.pkgs id = some pd) (hst : pd.status = .running h0 t0)
    (hsc : env.shouldCommit = true)
    (hf : ∀ a b, env.edgeFail a b = false) (hsv : env.saveFail = false) :
    ∃ (dbP : DB) (ext : List Event),
      propagateList id (probeResults env pd.manifest.health_checks)
          pd.current_dependents env
          ⟨db.setStatus id (.running (probeResults env pd.manifest.health_checks) t0),
           (readTrace id ++ probeTrace pd.manifest ++ [.sample true]) ++
             [.lockAll [(.statusLoc id, .write), (.dependentsLoc id, .read)],
              .readStatus id, .writeStatus id, .readDependents id, .checkpointSave]⟩ =
        (.ok (), ⟨dbP,
          ((readTrace id ++ probeTrace pd.manifest ++ [.sample true]) ++
             [.lockAll [(.statusLoc id, .write), (.dependentsLoc id, .read)],
              .readStatus id, .writeStatus id, .readDependents id, .checkpointSave]) ++ ext⟩) ∧
      runCheck env db id =
        ⟨dbP,
         (((readTrace id ++ probeTrace pd.manifest ++ [.sample true]) ++
             [.lockAll [(.statusLoc id, .write), (.dependentsLoc id, .read)],
              .readStatus id, .writeStatus id, .readDependents id, .checkpointSave]) ++ ext)
           ++ [.txSave], true⟩ ∧
      (∀ q, dbP.statusOf q =
        (db.setStatus id (.running (probeResults env pd.manifest.health_checks) t0)).statusOf q) ∧
      (∀ q, dbP.manifestOf q = db.manifestOf q) ∧
      (∀ q, dbP.dependentsOf q = db.dependentsOf q) ∧
      dbP.nodesOf = db.nodesOf := by
  set results := probeResults env pd.manifest.health_checks with hres
  set pre := readTrace id ++ probeTrace pd.manifest ++ [.sample true] with hpre
  set wcEv : List Event :=
    [.lockAll [(.statusLoc id, .write), (.dependentsLoc id, .read)],
     .readStatus id, .writeStatus id, .readDependents id, .checkpointSave] with hwcEv
  set db₁ := db.setStatus id (.running results t0) with hdb₁
  have hmem₁ : ∀ p ∈ pd.current_dependents, p.1 ∈ db₁.nodesOf := by
    intro p hp
    rw [hdb₁, DB.nodesOf_setStatus]
    exact DB.dependent_mem_nodesOf db id hpd (List.mem_map_of_mem Prod.fst hp)
  obtain ⟨dbP, ext1, hrun1, -⟩ :=
    propagateList_ok id results env hf pd.current_dependents ⟨db₁, pre ++ wcEv⟩ hmem₁
  obtain ⟨r2, dbF, extF, hrunF, hsF, hmF, hdF, hnF, -⟩ :=
    propagateList_frame id results pd.current_dependents env ⟨db₁, pre ++ wcEv⟩
  have hEq : ((r2, ⟨dbF, pre ++ wcEv ++ extF⟩) : Except Err Unit × TxState) =
      ((.ok (), ⟨dbP, pre ++ wcEv ++ ext1⟩) : Except Err Unit × TxState) :=
    hrunF.symm.trans hrun1
  have hdbF : dbF = dbP := by
    have h2 := congrArg (fun x : Except Err Unit × TxState => x.2.db) hEq
    simpa using h2
  have hwc1 := run_writeCheckpoint_running id results env db pre hpd hst
  have hcp1 : commitPhase id results env ⟨db, pre⟩ =
      (.ok (), ⟨dbP, ((pre ++ wcEv) ++ ext1) ++ [.txSave]⟩) := by
    rw [commitPhase]
    simp only [HM.run_bind, hwc1]
    rw [hrun1]
    simp [txSaveE, hsv]
  have hcheck1 : check id env ⟨db, []⟩ =
      (.ok (), ⟨dbP, ((pre ++ wcEv) ++ ext1) ++ [.txSave]⟩) := by
    rw [run_check_running env db id hpd hst, hsc]
    rw [if_pos rfl]
    exact hcp1
  refine ⟨dbP, ext1, hrun1, ?_, ?_, ?_, ?_, ?_⟩
  · simp only [runCheck, hcheck1]
  · intro q
    rw [← hdbF]
    exact hsF q
  · intro q
    rw [← hdbF, hmF q]
    show db₁.manifestOf q = db.manifestOf q
    rw [hdb₁, DB.manifestOf_setStatus]
  · intro q
    rw [← hdbF, hdF q]
    show db₁.dependentsOf q = db.dependentsOf q
    rw [hdb₁, DB.dependentsOf_setStatus]
  · rw [← hdbF, hnF]
    show db₁.nodesOf = db.nodesOf
    rw [hdb₁, DB.nodesOf_setStatus]

/-- C8.  Amended: a second cycle run immediately after a committed cycle of
a running service, with the same environment (identical probe results, the
commit signal set, no injected faults), itself commits and leaves every
package's persisted status — in particular the health map — unchanged; and
when every current dependent computes a non-empty failing subset (every
dependent takes the break path), the second cycle leaves the whole
database, dependency errors included, unchanged.  The unrestricted claim is
false: see the counterexample, where a heal cascade meets a dependents
cycle through the monitored service. -/
theorem C8_break_only_idempotence (env : Env) (db : DB) (id : PackageId) {pd : PkgData}
    {h0 : HealthMap} {t0 : Nat}
    (hwf : db.WF)
    (hpd : lookupAL db.pkgs id = some pd) (hst : pd.status = .running h0 t0)
    (hsc : env.shouldCommit = true)
    (hf : ∀ a b, env.edgeFail a b = false) (hsv : env.saveFail = false) :
    (runCheck env db id).committed = true ∧
    (runCheck env (runCheck env db id).db id).committed = true ∧
    (∀ q, (runCheck env (runCheck env db id).db id).db.statusOf q =
      (runCheck env db id).db.statusOf q) ∧
    ((∀ p ∈ pd.current_dependents,
        (computeFailures (probeResults env pd.manifest.health_checks) p.2).isEmpty = false) →
      (runCheck env (runCheck env db id).db id).db = (runCheck env db id).db) := by
  obtain ⟨dbP, ext1, hProp1, hr1, hsP, hmP, hdP, hnP⟩ :=
    runCheck_running_commit env db id hpd hst hsc hf hsv
  have hsid : dbP.statusOf id =
      some (.running (probeResults env pd.manifest.health_checks) t0) := by
    rw [hsP id]
    exact DB.statusOf_setStatus_self db id _ hpd
  obtain ⟨pd', hlk', hstat'⟩ : ∃ pd', lookupAL dbP.pkgs id = some pd' ∧
      pd'.status = .running (probeResults env pd.manifest.health_checks) t0 := by
    unfold DB.statusOf at hsid
    cases hmap : lookupAL dbP.pkgs id with
    | none => rw [hmap] at hsid; simp at hsid
    | some pd' =>
      rw [hmap] at hsid
      simp only [Option.map] at hsid
      exact ⟨pd', rfl, Option.some.inj hsid⟩
  have hman' : pd'.manifest = pd.manifest := by
    have h1 : dbP.manifestOf id = some pd.manifest := by
      rw [hmP id]
      simp [DB.manifestOf, hpd]
    unfold DB.manifestOf at h1
    rw [hlk'] at h1
    simpa using h1
  have hdept' : pd'.current_dependents = pd.current_dependents := by
    have h1 : dbP.dependentsOf id = pd.current_dependents := by
      rw [hdP id]
      simp [DB.dependentsOf, hpd]
    unfold DB.dependentsOf at h1
    rw [hlk'] at h1
    simpa using h1
  obtain ⟨dbQ, ext2, hProp2, hr2, hsQ, hmQ, hdQ, hnQ⟩ :=
    runCheck_running_commit env dbP id hlk' hstat' hsc hf hsv
  rw [hman'] at hProp2 hr2 hsQ
  have hset : dbP.setStatus id
      (.running (probeResults env pd.manifest.health_checks) t0) = dbP :=
    DB.setStatus_self dbP id hlk' hstat'
  rw [hset] at hProp2 hsQ
  rw [hdept'] at hProp2
  refine ⟨?_, ?_, ?_, ?_⟩
  · simp [hr1]
  · simp [hr1, hr2]
  · intro q
    simp only [hr1, hr2]
    exact hsQ q
  · intro habr
    simp only [hr1, hr2]
    have hdeps : ∀ n,
        (db.setStatus id (.running (probeResults env pd.manifest.health_checks) t0)).depsOf n =
          dbP.depsOf n := by
      intro n
      unfold DB.depsOf
      rw [DB.dependentsOf_setStatus, hdP n]
    have hnn :
        (db.setStatus id (.running (probeResults env pd.manifest.health_checks) t0)).nodesOf =
          dbP.nodesOf := by
      rw [DB.nodesOf_setStatus, hnP]
    obtain ⟨r, extP, ws, hP1, hP2⟩ :=
      propagateList_parallel id (probeResults env pd.manifest.health_checks) env
        pd.current_dependents
        (db.setStatus id (.running (probeResults env pd.manifest.health_checks) t0)) dbP
        ((readTrace id ++ probeTrace pd.manifest ++ [.sample true]) ++
           [.lockAll [(.statusLoc id, .write), (.dependentsLoc id, .read)],
            .readStatus id, .writeStatus id, .readDependents id, .checkpointSave])
        ((readTrace id ++ probeTrace pd.manifest ++ [.sample true]) ++
           [.lockAll [(.statusLoc id, .write), (.dependentsLoc id, .read)],
            .readStatus id, .writeStatus id, .readDependents id, .checkpointSave])
        hdeps hnn habr
    have hEq1 := hP1.symm.trans hProp1
    have hws1 : applyWritesL
        (db.setStatus id (.running (probeResults env pd.manifest.health_checks) t0)) ws =
          dbP := by
      have h2 := congrArg (fun x : Except Err Unit × TxState => x.2.db) hEq1
      simpa using h2
    have hEq2 := hP2.symm.trans hProp2
    have hws2 : applyWritesL dbP ws = dbQ := by
      have h2 := congrArg (fun x : Except Err Unit × TxState => x.2.db) hEq2
      simpa using h2
    rw [← hws2, ← hws1]
    exact applyWritesL_absorb ws _ (DB.WF_setStatus db id _ hwf)

set_option maxHeartbeats 16000000 in
/-- Counterexample to C8 as stated: on the dependents cycle through the
monitored service both consecutive cycles commit with identical probe
results and no intervening external change, the first cycle leaves the
edge X → Y clear, yet the second records a `DependencyError` on it — the
second cycle is not a no-op on persisted state. -/
theorem C8_counterexample :
    (runCheck cenv8 cdb8 "P").committed = true ∧
    (runCheck cenv8 (runCheck cenv8 cdb8 "P").db "P").committed = true ∧
    (runCheck cenv8 cdb8 "P").db.edgeError "X" "Y" = none ∧
    (runCheck cenv8 (runCheck cenv8 cdb8 "P").db "P").db.edgeError "X" "Y" =
      some (.healthChecksFailed [("cA", .failure "f")]) := by
  exact ⟨by decide, by decide, by decide, by decide⟩

/-- Witness for the amended C8 theorem at a concrete break-only instance:
the first cycle commits and the second changes nothing. -/
theorem C8_break_only_idempotence_witness :
    (runCheck wenv8 wdb8 "P").committed = true ∧
    (runCheck wenv8 (runCheck wenv8 wdb8 "P").db "P").db = (runCheck wenv8 wdb8 "P").db := by
  have h := @C8_break_only_idempotence wenv8 wdb8 "P"
    ⟨.running [] 5, ⟨["c"]⟩, [("A", ⟨["c"]⟩)], []⟩ [] 5
    ⟨by decide, by decide⟩ rfl rfl rfl (fun a b => rfl) rfl
  exact ⟨h.1, h.2.2.2 (by decide)⟩

end StartOS
